import Mathlib

/-
Verification of the PY_Schelling simulation core against its specification.

This file gives a shallow embedding of the Python sources
(`grid_models.py`, `tile_model.py`, `world_model.py`) and proves or refutes
the specification claims about them.

Modelling conventions:
* Python ints are `Int`; Python floats produced by `tile_desirability` are
  modelled as `ℚ` (every score is `smallIntNumerator / (2 * n)` with
  `n ≤ 8`; such values are pairwise distinguished exactly by their rational
  values, so order and equality comparisons agree with IEEE doubles here).
* The `tiles_dict` of `TileSystem` (a Python insertion-ordered dict keyed by
  position) is modelled as the underlying `List Tile`; lookups search the
  list.  The dict invariant (one tile per position) is carried as an explicit
  `Nodup` hypothesis where a theorem needs it.
* Python's in-place mutation of the two `Tile` objects in `switch_tiles`
  is modelled by rebuilding the tile list: the two mutated objects are the
  list entries whose (immutable) positions are those of the arguments, so the
  pure function reads the current payloads at those positions and exchanges
  them.
* Fallible operations (`ZeroDivisionError` of `tile_desirability` and of
  `_norm_weight_prob`) are modelled with `Option`: `none` is a raised
  exception.  `World.tile_desirability` is the totalised variant (the guard
  the specification asks for, returning 0 on an empty neighbour list); the
  faithful fallible variant is `World.tile_desirability_checked`.
-/

namespace Schelling

/-- The tile types of `tile_model.TileType`. -/
inductive TileType where
  | Empty
  | Green
  | Blue
deriving DecidableEq, Repr

/-- `grid_models.GridLocation`: a (row, column) pair, equality by value. -/
structure GridLocation where
  row : Int
  col : Int
deriving DecidableEq, Repr

/-- The constructor data of `grid_models.BaseGridSystem`. -/
structure Grid where
  rows : Int
  cols : Int
  center_on_origin : Bool
deriving DecidableEq, Repr

/-- Python `range(a, b)` as a list of integers. -/
def intRange (a b : Int) : List Int :=
  (List.range (b - a).toNat).map (fun i => a + (i : Int))

/-- `BaseGridSystem.indices`: all (row, column) index pairs of the grid. -/
def Grid.indices (g : Grid) : List (Int × Int) :=
  if g.center_on_origin then
    (intRange (-g.rows) (g.rows + 1)).flatMap
      (fun r => (intRange (-g.cols) (g.cols + 1)).map (fun c => (r, c)))
  else
    (intRange 0 g.rows).flatMap
      (fun r => (intRange 0 g.cols).map (fun c => (r, c)))

/-- `BaseGridSystem._is_within_bounds`, exactly as the source computes it:
`top_bound`/`bottom_bound` are taken from `cols` and compared with the row,
`left_bound`/`right_bound` are taken from `rows` and compared with the
column, all comparisons inclusive. -/
def Grid.is_within_bounds (g : Grid) (loc : GridLocation) : Bool :=
  let top_bound : Int := g.cols
  let bottom_bound : Int := if g.center_on_origin then -g.cols else 0
  let left_bound : Int := if g.center_on_origin then -g.rows else 0
  let right_bound : Int := g.rows
  (decide (left_bound ≤ loc.col) && decide (loc.col ≤ right_bound)) &&
    (decide (bottom_bound ≤ loc.row) && decide (loc.row ≤ top_bound))

/-- `OctagonalGridSystem.directions`. -/
def octDirections : List (Int × Int) :=
  [(1, 0), (1, 1), (0, 1), (-1, 1), (-1, 0), (-1, -1), (0, -1), (1, -1)]

/-- `OctagonalGridSystem.neighbours`: apply each direction offset and keep
the results passing `_is_within_bounds`, in direction order. -/
def Grid.neighbours (g : Grid) (loc : GridLocation) : List GridLocation :=
  (octDirections.map (fun d => GridLocation.mk (loc.row + d.1) (loc.col + d.2))).filter
    (fun l => g.is_within_bounds l)

/-- The bounds predicate as the specification and claim C1 word it: the row
component ranges over the row extent and the column component over the column
extent, half-open in the non-centered case. -/
def in_bounds_claim (g : Grid) (loc : GridLocation) : Bool :=
  if g.center_on_origin then
    (decide (-g.rows ≤ loc.row) && decide (loc.row ≤ g.rows)) &&
      (decide (-g.cols ≤ loc.col) && decide (loc.col ≤ g.cols))
  else
    (decide (0 ≤ loc.row) && decide (loc.row < g.rows)) &&
      (decide (0 ≤ loc.col) && decide (loc.col < g.cols))

/-- `tile_model.Tile`: type, fixed position, id. -/
structure Tile where
  tile_type : TileType
  tile_position : GridLocation
  tile_id : Int
deriving DecidableEq, Repr

/-- `Tile.__eq__`: tile equality in Python is decided solely by `tile_id`. -/
def tileEq (t1 t2 : Tile) : Bool :=
  decide (t1.tile_id = t2.tile_id)

/-- The datum `Tile.__hash__` is computed from: solely the tile's position
(`hash(self.tile_position)`).  The Python hash is a function of this key, so
hash inequality is modelled as inequality of the keys. -/
def tileHashKey (t : Tile) : GridLocation :=
  t.tile_position

/-- `TileSystem.tile_at_loc`: dictionary lookup by position. -/
def tile_at_loc (ts : List Tile) (loc : GridLocation) : Option Tile :=
  ts.find? (fun t => t.tile_position = loc)

/-- Overwrite the type/id payload of `t` with the payload of `src`,
keeping `t`'s position. -/
def payloadFrom (src t : Tile) : Tile :=
  { t with tile_type := src.tile_type, tile_id := src.tile_id }

/-- `TileSystem.switch_tiles`: exchange `tile_type` and `tile_id` between the
two tile objects, leaving positions untouched.  The mutated objects are the
store entries at the arguments' (immutable) positions, so the pure version
exchanges the current payloads found at those two positions. -/
def switch_tiles (ts : List Tile) (t1 t2 : Tile) : List Tile :=
  ts.map (fun t =>
    if t.tile_position = t1.tile_position then
      payloadFrom ((tile_at_loc ts t2.tile_position).getD t2) t
    else if t.tile_position = t2.tile_position then
      payloadFrom ((tile_at_loc ts t1.tile_position).getD t1) t
    else t)

/-- `world_model.World`: an octagonal grid system plus a tile system. -/
structure World where
  grid : Grid
  tiles : List Tile
deriving DecidableEq, Repr

/-- `World.tile_neighbours`: resolve the grid neighbour locations to tiles
and drop the absent ones. -/
def World.tile_neighbours (w : World) (tile : Tile) : List Tile :=
  (w.grid.neighbours tile.tile_position).filterMap (fun loc => tile_at_loc w.tiles loc)

/-- The local `same` of `tile_desirability` before its `self_des`
adjustment: how many resolved neighbours carry the candidate type. -/
def World.sameCount (w : World) (tile : Tile) (ty : TileType) : Nat :=
  ((w.tile_neighbours tile).filter (fun t => t.tile_type = ty)).length

/-- The local `empty` of `tile_desirability` before its `self_des`
adjustment: how many resolved neighbours are Empty. -/
def World.emptyCount (w : World) (tile : Tile) : Nat :=
  ((w.tile_neighbours tile).filter (fun t => t.tile_type = TileType.Empty)).length

/-- The local `diff` of `tile_desirability`: how many resolved neighbours
carry a non-Empty type different from the candidate type. -/
def World.diffCount (w : World) (tile : Tile) (ty : TileType) : Nat :=
  ((w.tile_neighbours tile).filter
    (fun t => t.tile_type ≠ ty ∧ t.tile_type ≠ TileType.Empty)).length

/-- `World.tile_desirability` with its fallible division made explicit:
`none` is the `ZeroDivisionError` raised when the resolved neighbour list is
empty (the source has no guard).  The score is written with `mkRat`, which
equals the literal translation `(2*same2 - 2*diff + empty2 : ℚ) / (2*n : ℚ)`
(see `tile_desirability_checked_div_form`) but also evaluates by `decide`. -/
def World.tile_desirability_checked (w : World) (tile : Tile) (ty : TileType)
    (self_des : Bool) : Option ℚ :=
  if tile.tile_type = TileType.Empty ∧ self_des = true then some 0
  else if (w.tile_neighbours tile).length = 0 then none
  else some (mkRat
    (2 * (if self_des then (w.sameCount tile ty : Int) else (w.sameCount tile ty : Int) - 1)
      - 2 * (w.diffCount tile ty : Int)
      + (if self_des then (w.emptyCount tile : Int) else (w.emptyCount tile : Int) + 1))
    (2 * (w.tile_neighbours tile).length))

/-- Totalised desirability: the guarded semantics the specification mandates
(score 0 on an empty neighbour list instead of a division fault). -/
def World.tile_desirability (w : World) (tile : Tile) (ty : TileType)
    (self_des : Bool) : ℚ :=
  (w.tile_desirability_checked tile ty self_des).getD 0

/-- Self-desirability: `tile_desirability(tile, tile.tile_type, True)`. -/
def World.self_desirability (w : World) (tile : Tile) : ℚ :=
  w.tile_desirability tile tile.tile_type true

/-- `World.desirability_matrix`: the empty neighbours of `tile` paired with
the score each would have for `tile`'s own type, with `self=false`. -/
def World.desirability_matrix (w : World) (tile : Tile) : List (Tile × ℚ) :=
  ((w.tile_neighbours tile).filter (fun t => t.tile_type = TileType.Empty)).map
    (fun t => (t, w.tile_desirability t tile.tile_type false))

/-- Python `max(l, key=itemgetter(1))`: first element attaining the maximal
second component (`none` on the empty list, where Python raises). -/
def pymax (l : List (Tile × ℚ)) : Option (Tile × ℚ) :=
  match l with
  | [] => none
  | x :: xs => some (xs.foldl (fun acc p => if acc.2 < p.2 then p else acc) x)

/-- Python `min(l, key=itemgetter(1))`: first element attaining the minimal
second component. -/
def pymin (l : List (Tile × ℚ)) : Option (Tile × ℚ) :=
  match l with
  | [] => none
  | x :: xs => some (xs.foldl (fun acc p => if p.2 < acc.2 then p else acc) x)

/-- `World.wants_to_move_to_tile`: an empty tile never proposes; otherwise
the first maximal entry of the desirability matrix is proposed exactly when
its score strictly exceeds the tile's self-desirability. -/
def World.wants_to_move_to_tile (w : World) (tile : Tile) : Option Tile :=
  if tile.tile_type = TileType.Empty then none
  else
    (pymax (w.desirability_matrix tile)).bind (fun m =>
      if w.tile_desirability tile tile.tile_type true < m.2 then some m.1 else none)

/-- The list comprehension of `desirability_matrix` with its fallible
divisions explicit: entries are produced left to right and the first
`ZeroDivisionError` (a `none` from `tile_desirability_checked`) aborts the
whole comprehension. -/
def desirabilityRowChecked (w : World) (ty : TileType) :
    List Tile → Option (List (Tile × ℚ))
  | [] => some []
  | t :: ts =>
    (w.tile_desirability_checked t ty false).bind (fun q =>
      (desirabilityRowChecked w ty ts).map (fun r => (t, q) :: r))

/-- `World.desirability_matrix` with the fallible division explicit. -/
def World.desirability_matrix_checked (w : World) (tile : Tile) :
    Option (List (Tile × ℚ)) :=
  desirabilityRowChecked w tile.tile_type
    ((w.tile_neighbours tile).filter (fun t => t.tile_type = TileType.Empty))

/-- `World.wants_to_move_to_tile` with the fallible divisions explicit, in
source evaluation order: the Empty guard first, then the self-desirability
(whose division can raise), then the matrix (each entry's division can
raise), then the empty-matrix guard and the strict comparison.  The outer
`none` is an escaped `ZeroDivisionError`; `some none` is the function
returning no destination. -/
def World.wants_to_move_to_tile_checked (w : World) (tile : Tile) :
    Option (Option Tile) :=
  if tile.tile_type = TileType.Empty then some none
  else
    (w.tile_desirability_checked tile tile.tile_type true).bind (fun sd =>
      (w.desirability_matrix_checked tile).map (fun mat =>
        (pymax mat).bind (fun m => if sd < m.2 then some m.1 else none)))

/-- One proposal entry of `run_step`'s movement matrix:
`((proposing tile, its self-desirability), destination tile)`. -/
abbrev MoveProposal := (Tile × ℚ) × Tile

/-- The conflicts dictionary of `World.rem_dups`, keyed by destination tile.
Python keys it by the tile hash/equality (position-hash plus id-equality);
for id-consistent inputs that is an association list looked up by id. -/
abbrev Conflicts := List (Tile × List (Tile × ℚ))

/-- Python `in` on a list of tiles: membership decided by `Tile.__eq__`,
hence by id. -/
def kdMem (kd : List Tile) (i : Int) : Bool :=
  kd.any (fun t => t.tile_id = i)

/-- Whether some proposal of `mm` names a destination with id `i`
(the `last[1] in [t[1] for t in mm]` test of `rem_dups`). -/
def hasDest (mm : List MoveProposal) (i : Int) : Bool :=
  mm.any (fun q => q.2.tile_id = i)

/-- `conflicts[d].append(p)`. -/
def cfAppend (cf : Conflicts) (d : Tile) (p : Tile × ℚ) : Conflicts :=
  cf.map (fun e => if e.1.tile_id = d.tile_id then (e.1, e.2 ++ [p]) else e)

/-- `conflicts[d] = [p]` for a fresh key `d`. -/
def cfInsert (cf : Conflicts) (d : Tile) (p : Tile × ℚ) : Conflicts :=
  cf ++ [(d, [p])]

/-- Lookup in the conflicts dictionary by destination id. -/
def cfLookup (cf : Conflicts) (i : Int) : Option (List (Tile × ℚ)) :=
  (cf.find? (fun e => e.1.tile_id = i)).map (fun e => e.2)

/-- The `while mm:` loop of `World.rem_dups`.  The first argument is the
movement matrix already reversed (the loop pops from the end); `kd` is
`known_duplicates`, then `non_duplicates` and `conflicts`. -/
def remDupsGo : List MoveProposal → List Tile → List (Tile × Tile) → Conflicts →
    List (Tile × Tile) × Conflicts
  | [], _, nd, cf => (nd, cf)
  | p :: rest, kd, nd, cf =>
    if kdMem kd p.2.tile_id then
      remDupsGo rest kd nd (cfAppend cf p.2 p.1)
    else if hasDest rest p.2.tile_id then
      remDupsGo rest (kd ++ [p.2]) nd (cfInsert cf p.2 p.1)
    else
      remDupsGo rest kd (nd ++ [(p.1.1, p.2)]) cf

/-- `World.unique_min_des`: the proposer with the strictly lowest
self-desirability, or `none` when the minimum is attained more than once. -/
def unique_min_des (conflicts : List (Tile × ℚ)) : Option Tile :=
  (pymin conflicts).bind (fun m =>
    if 1 < (conflicts.filter (fun t => t.2 = m.2)).length then none else some m.1)

/-- `World.rem_dups`: single-proposer destinations pass through; contested
destinations are resolved by `unique_min_des`. -/
def rem_dups (mm : List MoveProposal) : List (Tile × Tile) :=
  let res := remDupsGo mm.reverse [] [] []
  res.1 ++ res.2.filterMap (fun e => (unique_min_des e.2).map (fun u => (u, e.1)))

/-- The proposal-collection loop of `World.run_step`: for each tile of the
store (in store order), its self-desirability and its proposed destination,
kept when a destination exists. -/
def World.movement_matrix (w : World) : List MoveProposal :=
  w.tiles.filterMap (fun tile =>
    (w.wants_to_move_to_tile tile).map (fun des => ((tile, w.self_desirability tile), des)))

/-- The proposals of `mm` naming a destination with id `i`, reduced to their
`(proposer, self-desirability)` components — the list a conflicts entry for
that destination accumulates. -/
def destProps (mm : List MoveProposal) (i : Int) : List (Tile × ℚ) :=
  (mm.filter (fun q => q.2.tile_id = i)).map (fun q => q.1)

/-- All store slots a list of accepted pairs touches: the proposer positions
followed by the destination positions. -/
def slotsOf (ps : List (Tile × Tile)) : List GridLocation :=
  ps.map (fun pr => pr.1.tile_position) ++ ps.map (fun pr => pr.2.tile_position)

/-- The exchangeable payload of a tile. -/
def payload (t : Tile) : TileType × Int :=
  (t.tile_type, t.tile_id)

/-- The commit loop of `World.run_step`: the accepted pairs are applied one
after the other with `switch_tiles`. -/
def commit_seq (accepted : List (Tile × Tile)) (ts : List Tile) : List Tile :=
  accepted.foldl (fun ts pr => switch_tiles ts pr.1 pr.2) ts

/-- `World.run_step`: collect proposals, resolve conflicts, then commit the
accepted pairs sequentially. -/
def World.run_step (w : World) : World :=
  { w with tiles := commit_seq (rem_dups w.movement_matrix) w.tiles }

/-- The commit phase as the specification words it (claim C4): every accepted
exchange is applied simultaneously — each store slot is rewritten at most
once, with a payload read straight from the pre-step snapshot, so no commit
can observe another and no commit order exists. -/
def commit_all (accepted : List (Tile × Tile)) (ts : List Tile) : List Tile :=
  ts.map (fun t =>
    ((accepted.find? (fun pr => pr.1.tile_position = t.tile_position)).map
        (fun pr => payloadFrom pr.2 t)).getD
      (((accepted.find? (fun pr => pr.2.tile_position = t.tile_position)).map
          (fun pr => payloadFrom pr.1 t)).getD t))

/-- The two-phase reference step of the specification (claim C4): the same
proposal collection and conflict resolution against the pre-step snapshot,
followed by the simultaneous, order-free commit `commit_all`. -/
def World.run_step_spec (w : World) : World :=
  { w with tiles := commit_all (rem_dups w.movement_matrix) w.tiles }

/-- Store well-formedness: one tile per position, pairwise distinct ids, and
every tile resolves at least one neighbour (so no desirability call of a step
divides by zero and the totalised scores agree with the fallible ones). -/
def World.WF (w : World) : Prop :=
  (w.tiles.map (fun t => t.tile_position)).Nodup ∧
    (w.tiles.map (fun t => t.tile_id)).Nodup ∧
    ∀ t ∈ w.tiles, w.tile_neighbours t ≠ []

instance (w : World) : Decidable w.WF := by
  unfold World.WF
  infer_instance

/-- The weight total of `RandomTileTypeGenerator._norm_weight_prob`. -/
def weight_norm (ws : List (TileType × Int)) : Int :=
  (ws.map (fun p => p.2)).sum

/-- `RandomTileTypeGenerator._norm_weight_prob`, with its fallible division
explicit: a nonempty weight table summing to zero raises `ZeroDivisionError`
(`none`); an empty table never reaches the division and yields an empty
probability table. -/
def norm_weight_prob? (ws : List (TileType × Int)) :
    Option (List (TileType × ℚ)) :=
  if ws = [] then some []
  else if weight_norm ws = 0 then none
  else some (ws.map (fun p => (p.1, (p.2 : ℚ) / ((weight_norm ws : Int) : ℚ))))

/-- `World.__init__`: build the grid and the random generator (whose
normalisation may raise), then take the given tiles if the list is nonempty,
otherwise generate one tile per grid index with ids 0,1,2,…  The random draws
are abstracted by the oracle `randomTile`.  No argument validation of any
kind is performed. -/
def world_init? (randomTile : Nat → TileType) (rows cols : Int) (centered : Bool)
    (tile_weights : List (TileType × Int)) (tiles : List Tile) : Option World :=
  (norm_weight_prob? tile_weights).map (fun _ =>
    if tiles ≠ [] then { grid := ⟨rows, cols, centered⟩, tiles := tiles }
    else
      { grid := ⟨rows, cols, centered⟩,
        tiles := ((Grid.mk rows cols centered).indices).enum.map
          (fun pr =>
            { tile_type := randomTile pr.1
              tile_position := ⟨pr.2.1, pr.2.2⟩
              tile_id := (pr.1 : Int) }) })

/-! Concrete worlds used by the counterexamples and witnesses below. -/

/-- Abbreviation for building one tile. -/
def mkT (ty : TileType) (r c : Int) (i : Int) : Tile :=
  ⟨ty, ⟨r, c⟩, i⟩

/-- A 3×3 centered all-Empty world (rows = cols = 1, centered). -/
def wEmpty3 : World :=
  { grid := ⟨1, 1, true⟩
    tiles := [mkT .Empty (-1) (-1) 0, mkT .Empty (-1) 0 1, mkT .Empty (-1) 1 2,
              mkT .Empty 0 (-1) 3, mkT .Empty 0 0 4, mkT .Empty 0 1 5,
              mkT .Empty 1 (-1) 6, mkT .Empty 1 0 7, mkT .Empty 1 1 8] }

/-- The center tile of `wEmpty3`. -/
def tCenter : Tile := mkT .Empty 0 0 4

/-- A world with a single Green tile on a 1×1 non-centered grid: its grid
neighbour locations hold no tiles, so its resolved neighbour list is empty. -/
def tLone : Tile := mkT .Green 0 0 0

/-- The world holding only `tLone`. -/
def wLone : World := { grid := ⟨1, 1, false⟩, tiles := [tLone] }

/-- A 3×3 centered world (one Green cornered by two Blues, rest Empty) in
which all three occupied tiles propose moves and all three are accepted. -/
def wMove : World :=
  { grid := ⟨1, 1, true⟩
    tiles := [mkT .Green (-1) (-1) 0, mkT .Blue (-1) 0 1, mkT .Blue 0 (-1) 2,
              mkT .Empty (-1) 1 3, mkT .Empty 0 0 4, mkT .Empty 0 1 5,
              mkT .Empty 1 (-1) 6, mkT .Empty 1 0 7, mkT .Empty 1 1 8] }

/-- The Green tile of `wMove`. -/
def tGreenMove : Tile := mkT .Green (-1) (-1) 0

/-- Proposers and destinations of a concrete movement matrix: `dX` is
contested by `pA` (self-desirability 1/2) and `pB` (1/4); `dY` has the
single proposer `pC`. -/
def pA : Tile := mkT .Green 0 0 0

/-- Second proposer. -/
def pB : Tile := mkT .Green 2 0 1

/-- Third proposer. -/
def pC : Tile := mkT .Blue 4 0 2

/-- Contested destination. -/
def dX : Tile := mkT .Empty 0 5 10

/-- Singly-proposed destination. -/
def dY : Tile := mkT .Empty 0 6 11

/-- The concrete movement matrix for the conflict-resolution witness. -/
def mmEx : List MoveProposal :=
  [((pA, mkRat 1 2), dX), ((pB, mkRat 1 4), dX), ((pC, mkRat 1 1), dY)]

/-- Two tiles for the hash/equality and swap examples. -/
def tSwapA : Tile := mkT .Green 0 0 0

/-- Second tile of the swap example. -/
def tSwapB : Tile := mkT .Blue 0 1 1

/-- Every score `mkRat a b` written in `tile_desirability_checked` is exactly
the Python expression `a / b` read as exact rational division, so the
embedding's scores are the source's `(2*same - 2*diff + empty) / (2*len(ns))`. -/
theorem tile_desirability_checked_div_form (a : Int) (b : Nat) :
    mkRat a b = (a : ℚ) / (b : ℚ) := by
  rw [Rat.mkRat_eq_div]

/-- C1: the frozen claim says `_is_within_bounds` checks the row component
against the row extent and the column component against the column extent,
with a half-open range in the non-centered case.  The source does the
opposite: it compares the row against the `cols` bounds and the column
against the `rows` bounds, inclusively on both ends.  On the non-centered
grid with `rows = 1`, `cols = 2`, the location (row 2, col 0) is accepted by
the code and even returned as a neighbour of (1, 0), although its row lies
far outside the claimed range [0, 1). -/
theorem c1_bounds_check_swapped :
    Grid.is_within_bounds ⟨1, 2, false⟩ ⟨2, 0⟩ = true ∧
    in_bounds_claim ⟨1, 2, false⟩ ⟨2, 0⟩ = false ∧
    GridLocation.mk 2 0 ∈ Grid.neighbours ⟨1, 2, false⟩ ⟨1, 0⟩ := by
  decide

/-- C6: `tile_desirability` is not total.  The world `wLone` is built by the
ordinary `World` constructor from an explicit tile list; its single Green
tile resolves zero neighbours, and the self-desirability call that
`run_step` would issue for it reaches the division by `2 * len(ns)` with a
zero divisor (`none` models the raised `ZeroDivisionError`), instead of the
defined score 0 the claim asserts. -/
theorem c6_division_by_zero_reachable :
    world_init? (fun _ => TileType.Empty) 1 1 false [(TileType.Green, 1)] [tLone]
      = some wLone ∧
    wLone.tile_neighbours tLone = [] ∧
    wLone.tile_desirability_checked tLone TileType.Green true = none := by
  decide

/-- C9: `World.__init__` performs no validation at all.  Construction with
zero rows, or with an empty weight table, succeeds silently; an all-zero
weight table makes `_norm_weight_prob` itself divide by zero (`none` models
the `ZeroDivisionError` raised inside the normalizer) — in no case is a
descriptive configuration error raised at construction. -/
theorem c9_no_fail_fast_validation :
    (world_init? (fun _ => TileType.Empty) 0 5 false [(TileType.Green, 1)] []).isSome
      = true ∧
    (world_init? (fun _ => TileType.Empty) 2 2 true [] []).isSome = true ∧
    norm_weight_prob? [(TileType.Green, 0), (TileType.Blue, 0)] = none := by
  decide

/-- C10: Python tile equality is decided solely by id (`tileEq`) while the
hash is computed solely from the position (`tileHashKey`).  After
`switch_tiles` on the two-tile store, the object left at position (0, 0)
carries id 1, so it compares equal to the pre-swap tile `tSwapB` — yet the
two hash inputs are the distinct positions (0, 0) and (0, 1), so the
consistency law `t1 = t2 → hash t1 = hash t2` fails for this pair. -/
theorem c10_eq_by_id_hash_by_position :
    switch_tiles [tSwapA, tSwapB] tSwapA tSwapB
      = [⟨TileType.Blue, ⟨0, 0⟩, 1⟩, ⟨TileType.Green, ⟨0, 1⟩, 0⟩] ∧
    tileEq ⟨TileType.Blue, ⟨0, 0⟩, 1⟩ tSwapB = true ∧
    tileHashKey ⟨TileType.Blue, ⟨0, 0⟩, 1⟩ ≠ tileHashKey tSwapB := by
  decide

/-- C5 counterexample: in the all-Empty 3×3 world the desirability matrix of
the center tile contains the score 4/3 for the corner neighbour — a
destination score outside the claimed interval [-1, 1] (the `self=false`
adjustment double-counts Empty tiles when the candidate type is Empty). -/
theorem c5_counterexample_score_above_one :
    tCenter ∈ wEmpty3.tiles ∧
    (mkT .Empty 1 1 8, mkRat 4 3) ∈ wEmpty3.desirability_matrix tCenter ∧
    (1 : ℚ) < mkRat 4 3 ∧
    ¬ (∀ p ∈ wEmpty3.desirability_matrix tCenter, -1 ≤ p.2 ∧ p.2 ≤ 1) := by
  decide

/-! Score bounds (claim C5). -/

/-- Two mutually exclusive filters select at most the whole list. -/
theorem length_filter_add_length_filter_le {α : Type} (l : List α) (p q : α → Bool)
    (hpq : ∀ a, p a = true → q a = true → False) :
    (l.filter p).length + (l.filter q).length ≤ l.length := by
  induction l with
  | nil => simp
  | cons a l ih =>
    simp only [List.filter_cons, List.length_cons]
    by_cases h1 : p a = true
    · have h2 : ¬ q a = true := fun hq => hpq a h1 hq
      simp [h1, h2]
      omega
    · by_cases h2 : q a = true
      · simp [h1, h2]
        omega
      · simp [h1, h2]
        omega

/-- Case analysis of the totalised score: either one of the guards fired and
the score is 0, or the neighbour list is nonempty and the score is the
`mkRat` of the counted neighbours. -/
theorem tile_desirability_cases (w : World) (t : Tile) (ty : TileType) (sd : Bool) :
    w.tile_desirability t ty sd = 0 ∨
    (0 < (w.tile_neighbours t).length ∧
      w.tile_desirability t ty sd =
        mkRat
          (2 * (if sd then (w.sameCount t ty : Int) else (w.sameCount t ty : Int) - 1)
            - 2 * (w.diffCount t ty : Int)
            + (if sd then (w.emptyCount t : Int) else (w.emptyCount t : Int) + 1))
          (2 * (w.tile_neighbours t).length)) := by
  unfold World.tile_desirability World.tile_desirability_checked
  by_cases h0 : t.tile_type = TileType.Empty ∧ sd = true
  · rw [if_pos h0]
    exact Or.inl rfl
  · rw [if_neg h0]
    by_cases hn : (w.tile_neighbours t).length = 0
    · rw [if_pos hn]
      exact Or.inl rfl
    · rw [if_neg hn]
      exact Or.inr ⟨Nat.pos_of_ne_zero hn, rfl⟩

/-- Any destination score (`self = false`) lies in [-3/2, 3/2]. -/
theorem dest_score_bounds (w : World) (u : Tile) (ty : TileType) :
    -(3 / 2 : ℚ) ≤ w.tile_desirability u ty false ∧
      w.tile_desirability u ty false ≤ 3 / 2 := by
  rcases tile_desirability_cases w u ty false with h | ⟨hn, h⟩
  · rw [h]; norm_num
  · rw [h, Rat.mkRat_eq_div]
    simp only [Bool.false_eq_true, if_false]
    have hsn : w.sameCount u ty ≤ (w.tile_neighbours u).length :=
      List.length_filter_le _ _
    have hen : w.emptyCount u ≤ (w.tile_neighbours u).length :=
      List.length_filter_le _ _
    have hdn : w.diffCount u ty ≤ (w.tile_neighbours u).length :=
      List.length_filter_le _ _
    have h2n : (0 : ℚ) < ((2 * (w.tile_neighbours u).length : Nat) : ℚ) := by
      exact_mod_cast Nat.mul_pos (by norm_num) hn
    have hsq : (w.sameCount u ty : ℚ) ≤ ((w.tile_neighbours u).length : ℚ) := by
      exact_mod_cast hsn
    have heq : (w.emptyCount u : ℚ) ≤ ((w.tile_neighbours u).length : ℚ) := by
      exact_mod_cast hen
    have hdq : (w.diffCount u ty : ℚ) ≤ ((w.tile_neighbours u).length : ℚ) := by
      exact_mod_cast hdn
    have hnq : (1 : ℚ) ≤ ((w.tile_neighbours u).length : ℚ) := by exact_mod_cast hn
    constructor
    · rw [le_div_iff₀ h2n]
      push_cast
      linarith
    · rw [div_le_iff₀ h2n]
      push_cast
      linarith

/-- Any self-desirability lies in [-1, 1]. -/
theorem self_desirability_bounds (w : World) (t : Tile) :
    -1 ≤ w.self_desirability t ∧ w.self_desirability t ≤ 1 := by
  unfold World.self_desirability
  rcases tile_desirability_cases w t t.tile_type true with h | ⟨hn, h⟩
  · rw [h]; norm_num
  · by_cases hty : t.tile_type = TileType.Empty
    · have h0 : w.tile_desirability t t.tile_type true = 0 := by
        unfold World.tile_desirability World.tile_desirability_checked
        rw [if_pos ⟨hty, rfl⟩]
        rfl
      rw [h0]; norm_num
    · rw [h, Rat.mkRat_eq_div]
      simp only [if_true]
      have hse : w.sameCount t t.tile_type + w.emptyCount t
          ≤ (w.tile_neighbours t).length := by
        refine length_filter_add_length_filter_le _ _ _ ?_
        intro a h1 h2
        simp only [decide_eq_true_eq] at h1 h2
        exact hty (h1 ▸ h2)
      have hdn : w.diffCount t t.tile_type ≤ (w.tile_neighbours t).length :=
        List.length_filter_le _ _
      have h2n : (0 : ℚ) < ((2 * (w.tile_neighbours t).length : Nat) : ℚ) := by
        exact_mod_cast Nat.mul_pos (by norm_num) hn
      have hseq : (w.sameCount t t.tile_type : ℚ) + (w.emptyCount t : ℚ)
          ≤ ((w.tile_neighbours t).length : ℚ) := by
        exact_mod_cast hse
      have hdq : (w.diffCount t t.tile_type : ℚ) ≤ ((w.tile_neighbours t).length : ℚ) := by
        exact_mod_cast hdn
      constructor
      · rw [le_div_iff₀ h2n]
        push_cast
        linarith
      · rw [div_le_iff₀ h2n]
        push_cast
        linarith

/-- C5 (amended): every self-desirability lies in [-1, 1]; destination
scores of a desirability matrix lie in the wider interval [-3/2, 3/2] (the
counterexample above shows [-1, 1] is false for them, because the
`self=false` adjustment can push the numerator outside ±2n). -/
theorem c5_amended_score_bounds (w : World) (t : Tile) :
    (-1 ≤ w.self_desirability t ∧ w.self_desirability t ≤ 1) ∧
    ∀ p ∈ w.desirability_matrix t, -(3 / 2 : ℚ) ≤ p.2 ∧ p.2 ≤ 3 / 2 := by
  refine ⟨self_desirability_bounds w t, ?_⟩
  intro p hp
  unfold World.desirability_matrix at hp
  obtain ⟨u, hu, rfl⟩ := List.mem_map.1 hp
  exact dest_score_bounds w u t.tile_type

/-- Witness for C5's amended bound at the concrete matrix entry 4/3 of the
all-Empty 3×3 world. -/
theorem c5_amended_score_bounds_witness :
    -(3 / 2 : ℚ) ≤ mkRat 4 3 ∧ (mkRat 4 3 : ℚ) ≤ 3 / 2 :=
  (c5_amended_score_bounds wEmpty3 tCenter).2 (mkT .Empty 1 1 8, mkRat 4 3) (by decide)

/-! Basic store lemmas shared by the swap, step and invariant claims. -/

/-- With one tile per position, two members at the same position coincide. -/
theorem pos_inj {ts : List Tile}
    (hnd : (ts.map (fun t => t.tile_position)).Nodup)
    {a b : Tile} (ha : a ∈ ts) (hb : b ∈ ts)
    (h : a.tile_position = b.tile_position) : a = b :=
  List.inj_on_of_nodup_map hnd ha hb h

/-- With one tile per position, looking a member's position up returns it. -/
theorem tile_at_loc_of_mem {ts : List Tile}
    (hnd : (ts.map (fun t => t.tile_position)).Nodup)
    {t : Tile} (ht : t ∈ ts) : tile_at_loc ts t.tile_position = some t := by
  induction ts with
  | nil => cases ht
  | cons a l ih =>
    rcases List.mem_cons.mp ht with rfl | hmem
    · exact List.find?_cons_of_pos _ (by simp)
    · rw [List.map_cons, List.nodup_cons] at hnd
      obtain ⟨hnotmem, hnd'⟩ := hnd
      have hpos : ¬ (a.tile_position = t.tile_position) := by
        intro hc
        exact hnotmem (hc ▸ List.mem_map_of_mem (fun t => t.tile_position) hmem)
      show List.find? _ (a :: l) = some t
      rw [List.find?_cons_of_neg _ (by simpa using hpos)]
      exact ih hnd' hmem

/-- A position with no tile in the store keeps having none. -/
theorem tile_at_loc_eq_none {ts : List Tile} {x : GridLocation}
    (h : ∀ t ∈ ts, t.tile_position ≠ x) : tile_at_loc ts x = none :=
  List.find?_eq_none.mpr (fun t ht => by simpa using h t ht)

/-- `payloadFrom` keeps the position. -/
theorem payloadFrom_pos (src t : Tile) :
    (payloadFrom src t).tile_position = t.tile_position := rfl

/-- `switch_tiles` leaves the position list unchanged. -/
theorem switch_tiles_map_pos (ts : List Tile) (t1 t2 : Tile) :
    (switch_tiles ts t1 t2).map (fun t => t.tile_position)
      = ts.map (fun t => t.tile_position) := by
  unfold switch_tiles
  rw [List.map_map]
  apply List.map_congr_left
  intro a _
  simp only [Function.comp_apply]
  by_cases h1 : a.tile_position = t1.tile_position
  · rw [if_pos h1, payloadFrom_pos]
  · rw [if_neg h1]
    by_cases h2 : a.tile_position = t2.tile_position
    · rw [if_pos h2, payloadFrom_pos]
    · rw [if_neg h2]

/-- Lookup in the switched store: the two swapped slots carry the exchanged
payloads, all other lookups are unchanged. -/
theorem tile_at_loc_switch {ts : List Tile}
    (hnd : (ts.map (fun t => t.tile_position)).Nodup)
    {t1 t2 : Tile} (h1 : t1 ∈ ts) (h2 : t2 ∈ ts) (x : GridLocation) :
    tile_at_loc (switch_tiles ts t1 t2) x =
      if x = t1.tile_position then some (payloadFrom t2 t1)
      else if x = t2.tile_position then some (payloadFrom t1 t2)
      else tile_at_loc ts x := by
  unfold switch_tiles
  rw [tile_at_loc_of_mem hnd h1, tile_at_loc_of_mem hnd h2]
  simp only [Option.getD_some]
  unfold tile_at_loc
  rw [List.find?_map]
  have hpred : (fun t : Tile => decide (t.tile_position = x)) ∘
      (fun t =>
        if t.tile_position = t1.tile_position then payloadFrom t2 t
        else if t.tile_position = t2.tile_position then payloadFrom t1 t
        else t)
      = fun t : Tile => decide (t.tile_position = x) := by
    funext t
    simp only [Function.comp_apply]
    by_cases ha : t.tile_position = t1.tile_position
    · rw [if_pos ha, payloadFrom_pos]
    · rw [if_neg ha]
      by_cases hb : t.tile_position = t2.tile_position
      · rw [if_pos hb, payloadFrom_pos]
      · rw [if_neg hb]
  rw [hpred]
  by_cases hx1 : x = t1.tile_position
  · rw [if_pos hx1]
    subst hx1
    rw [show List.find? (fun t : Tile => decide (t.tile_position = t1.tile_position)) ts
          = some t1 from tile_at_loc_of_mem hnd h1]
    simp [payloadFrom]
  · rw [if_neg hx1]
    by_cases hx2 : x = t2.tile_position
    · rw [if_pos hx2]
      subst hx2
      rw [show List.find? (fun t : Tile => decide (t.tile_position = t2.tile_position)) ts
            = some t2 from tile_at_loc_of_mem hnd h2]
      have ht2 : ¬ (t2.tile_position = t1.tile_position) := fun hc => hx1 hc
      simp [ht2, payloadFrom]
    · rw [if_neg hx2]
      cases hfind : List.find? (fun t : Tile => decide (t.tile_position = x)) ts with
      | none => simp
      | some u =>
        have hu : u.tile_position = x := by simpa using List.find?_some hfind
        have hu1 : ¬ (u.tile_position = t1.tile_position) := fun hc => hx1 (hu ▸ hc)
        have hu2 : ¬ (u.tile_position = t2.tile_position) := fun hc => hx2 (hu ▸ hc)
        simp [hu1, hu2]

/-- A member of the store away from both swapped slots is untouched. -/
theorem mem_switch_tiles_of_ne {ts : List Tile} {t1 t2 u : Tile}
    (hu : u ∈ ts) (hu1 : u.tile_position ≠ t1.tile_position)
    (hu2 : u.tile_position ≠ t2.tile_position) :
    u ∈ switch_tiles ts t1 t2 := by
  unfold switch_tiles
  refine List.mem_map.mpr ⟨u, hu, ?_⟩
  rw [if_neg hu1, if_neg hu2]

/-- Swapping a tile with itself is a no-op. -/
theorem switch_tiles_self {ts : List Tile}
    (hnd : (ts.map (fun t => t.tile_position)).Nodup)
    {t : Tile} (ht : t ∈ ts) : switch_tiles ts t t = ts := by
  unfold switch_tiles
  rw [tile_at_loc_of_mem hnd ht]
  simp only [Option.getD_some]
  have : ∀ a ∈ ts,
      (if a.tile_position = t.tile_position then payloadFrom t a
       else if a.tile_position = t.tile_position then payloadFrom t a
       else a) = a := by
    intro a ha
    by_cases hc : a.tile_position = t.tile_position
    · have : a = t := pos_inj hnd ha ht hc
      subst this
      simp [payloadFrom]
    · rw [if_neg hc, if_neg hc]
  rw [List.map_congr_left this]
  simp

/-- C8: `switch_tiles` exchanges exactly the type and id of the two tiles:
afterwards the slot at `t1`'s position carries `t2`'s payload and vice
versa, both keeping their positions; every slot at any other position is
untouched; and the whole position list is unchanged.  Called with the same
tile twice it is a no-op. -/
theorem c8_switch_tiles_exchanges_payload (ts : List Tile) (t1 t2 : Tile)
    (hnd : (ts.map (fun t => t.tile_position)).Nodup)
    (h1 : t1 ∈ ts) (h2 : t2 ∈ ts) :
    tile_at_loc (switch_tiles ts t1 t2) t1.tile_position
      = some { t1 with tile_type := t2.tile_type, tile_id := t2.tile_id } ∧
    tile_at_loc (switch_tiles ts t1 t2) t2.tile_position
      = some { t2 with tile_type := t1.tile_type, tile_id := t1.tile_id } ∧
    (switch_tiles ts t1 t2).map (fun t => t.tile_position)
      = ts.map (fun t => t.tile_position) ∧
    (∀ u ∈ ts, u.tile_position ≠ t1.tile_position →
      u.tile_position ≠ t2.tile_position → u ∈ switch_tiles ts t1 t2) ∧
    switch_tiles ts t1 t1 = ts := by
  refine ⟨?_, ?_, switch_tiles_map_pos ts t1 t2,
    fun u hu hu1 hu2 => mem_switch_tiles_of_ne hu hu1 hu2,
    switch_tiles_self hnd h1⟩
  · rw [tile_at_loc_switch hnd h1 h2, if_pos rfl]
    rfl
  · rw [tile_at_loc_switch hnd h1 h2]
    by_cases hc : t2.tile_position = t1.tile_position
    · have : t2 = t1 := pos_inj hnd h2 h1 hc
      subst this
      rw [if_pos hc]
      rfl
    · rw [if_neg hc, if_pos rfl]
      rfl

/-- Witness for C8 on the concrete two-tile store. -/
theorem c8_witness :
    tile_at_loc (switch_tiles [tSwapA, tSwapB] tSwapA tSwapB) tSwapA.tile_position
        = some ⟨TileType.Blue, ⟨0, 0⟩, 1⟩ ∧
      switch_tiles [tSwapA, tSwapB] tSwapA tSwapA = [tSwapA, tSwapB] := by
  have h := c8_switch_tiles_exchanges_payload [tSwapA, tSwapB] tSwapA tSwapB
    (by decide) (by decide) (by decide)
  exact ⟨h.1, h.2.2.2.2⟩

/-! First-maximum characterisation of Python's `max` (claim C3). -/

/-- The fold of `pymax` returns either its accumulator (when nothing beats
it) or the first element strictly greater than the accumulator and at least
as great as everything after it. -/
theorem foldl_pick_max_spec (xs : List (Tile × ℚ)) (acc : Tile × ℚ) :
    (xs.foldl (fun a p => if a.2 < p.2 then p else a) acc = acc ∧
      ∀ q ∈ xs, q.2 ≤ acc.2) ∨
    (∃ l1 q l2, xs = l1 ++ q :: l2 ∧
      xs.foldl (fun a p => if a.2 < p.2 then p else a) acc = q ∧
      acc.2 < q.2 ∧ (∀ p ∈ l1, p.2 < q.2) ∧ (∀ p ∈ l2, p.2 ≤ q.2)) := by
  induction xs generalizing acc with
  | nil => exact Or.inl ⟨rfl, by simp⟩
  | cons p rest ih =>
    simp only [List.foldl_cons]
    by_cases hc : acc.2 < p.2
    · rw [if_pos hc]
      rcases ih p with ⟨heq, hle⟩ | ⟨l1, q, l2, hsplit, heq, hlt, hl1, hl2⟩
      · exact Or.inr ⟨[], p, rest, by simp, heq, hc, by simp, hle⟩
      · refine Or.inr ⟨p :: l1, q, l2, by simp [hsplit], heq, lt_trans hc hlt, ?_, hl2⟩
        intro x hx
        rcases List.mem_cons.mp hx with rfl | hx
        · exact hlt
        · exact hl1 x hx
    · rw [if_neg hc]
      push_neg at hc
      rcases ih acc with ⟨heq, hle⟩ | ⟨l1, q, l2, hsplit, heq, hlt, hl1, hl2⟩
      · refine Or.inl ⟨heq, ?_⟩
        intro x hx
        rcases List.mem_cons.mp hx with rfl | hx
        · exact hc
        · exact hle x hx
      · refine Or.inr ⟨p :: l1, q, l2, by simp [hsplit], heq, hlt, ?_, hl2⟩
        intro x hx
        rcases List.mem_cons.mp hx with rfl | hx
        · exact lt_of_le_of_lt hc hlt
        · exact hl1 x hx

/-- A list has at most one first-maximum decomposition point. -/
theorem first_max_split_unique :
    ∀ (l1 : List (Tile × ℚ)) {l2 l1' l2' : List (Tile × ℚ)} {m m' : Tile × ℚ},
    l1 ++ m :: l2 = l1' ++ m' :: l2' →
    (∀ p ∈ l1, p.2 < m.2) → (∀ p ∈ l2, p.2 ≤ m.2) →
    (∀ p ∈ l1', p.2 < m'.2) → (∀ p ∈ l2', p.2 ≤ m'.2) → m = m' := by
  intro l1
  induction l1 with
  | nil =>
    intro l2 l1' l2' m m' heq h1 h2 h1' h2'
    cases l1' with
    | nil =>
      simp only [List.nil_append] at heq
      exact (List.cons.inj heq).1
    | cons a' rest' =>
      simp only [List.nil_append, List.cons_append] at heq
      obtain ⟨hhead, htail⟩ := List.cons.inj heq
      have hm : m.2 < m'.2 := by
        have := h1' a' (List.mem_cons_self a' rest')
        rw [← hhead] at this
        exact this
      have hmem : m' ∈ l2 := by
        rw [htail]
        exact List.mem_append_right _ (List.mem_cons_self m' l2')
      exact absurd hm (not_lt.mpr (h2 m' hmem))
  | cons a rest ih =>
    intro l2 l1' l2' m m' heq h1 h2 h1' h2'
    cases l1' with
    | nil =>
      simp only [List.nil_append, List.cons_append] at heq
      obtain ⟨hhead, htail⟩ := List.cons.inj heq
      have hm : m'.2 < m.2 := by
        have := h1 a (List.mem_cons_self a rest)
        rw [hhead] at this
        exact this
      have hmem : m ∈ l2' := by
        rw [← htail]
        exact List.mem_append_right _ (List.mem_cons_self m l2)
      exact absurd hm (not_lt.mpr (h2' m hmem))
    | cons a' rest' =>
      simp only [List.cons_append] at heq
      obtain ⟨hhead, htail⟩ := List.cons.inj heq
      exact ih htail (fun p hp => h1 p (List.mem_cons_of_mem a hp)) h2
        (fun p hp => h1' p (List.mem_cons_of_mem a' hp)) h2'

/-- `pymax` fails exactly on the empty list (where Python raises). -/
theorem pymax_eq_none (l : List (Tile × ℚ)) : pymax l = none ↔ l = [] := by
  cases l with
  | nil => simp [pymax]
  | cons x xs => simp [pymax]

/-- Forward direction: `pymax l = some m` yields the first-maximum split. -/
theorem pymax_some_split {l : List (Tile × ℚ)} {m : Tile × ℚ}
    (h : pymax l = some m) :
    ∃ l1 l2, l = l1 ++ m :: l2 ∧ (∀ p ∈ l1, p.2 < m.2) ∧ (∀ p ∈ l2, p.2 ≤ m.2) := by
  cases l with
  | nil => simp [pymax] at h
  | cons x xs =>
    simp only [pymax, Option.some.injEq] at h
    rcases foldl_pick_max_spec xs x with ⟨heq, hle⟩ | ⟨l1, q, l2, hsplit, heq, hlt, hl1, hl2⟩
    · refine ⟨[], xs, ?_, by simp, ?_⟩
      · rw [← h, heq]
        simp
      · rw [← h, heq]
        exact hle
    · refine ⟨x :: l1, l2, ?_, ?_, ?_⟩
      · rw [← h, heq, hsplit]
        simp
      · intro p hp
        rw [← h, heq]
        rcases List.mem_cons.mp hp with rfl | hp
        · exact hlt
        · exact hl1 p hp
      · rw [← h, heq]
        exact hl2

/-- `pymax l` is the first element of `l` attaining the maximal score:
everything before it is strictly smaller, everything after it no greater. -/
theorem pymax_eq_some_iff (l : List (Tile × ℚ)) (m : Tile × ℚ) :
    pymax l = some m ↔
      ∃ l1 l2, l = l1 ++ m :: l2 ∧ (∀ p ∈ l1, p.2 < m.2) ∧ (∀ p ∈ l2, p.2 ≤ m.2) := by
  constructor
  · exact pymax_some_split
  · rintro ⟨l1, l2, hsplit, h1, h2⟩
    cases hl : pymax l with
    | none =>
      rw [pymax_eq_none] at hl
      rw [hl] at hsplit
      exact absurd hsplit.symm (List.append_ne_nil_of_right_ne_nil _ (by simp))
    | some m' =>
      obtain ⟨l1', l2', hsplit', h1', h2'⟩ := pymax_some_split hl
      rw [first_max_split_unique l1 (hsplit ▸ hsplit') h1 h2 h1' h2']

/-- On a tile with at least one resolved neighbour the fallible score is
defined and equals the totalised one. -/
theorem tile_desirability_checked_some (w : World) (t : Tile) (ty : TileType)
    (b : Bool) (h : w.tile_neighbours t ≠ []) :
    w.tile_desirability_checked t ty b = some (w.tile_desirability t ty b) := by
  unfold World.tile_desirability
  cases hc : w.tile_desirability_checked t ty b with
  | some q => rfl
  | none =>
    exfalso
    unfold World.tile_desirability_checked at hc
    by_cases h1 : t.tile_type = TileType.Empty ∧ b = true
    · rw [if_pos h1] at hc
      cases hc
    · rw [if_neg h1] at hc
      by_cases h2 : (w.tile_neighbours t).length = 0
      · exact h (List.length_eq_zero.mp h2)
      · rw [if_neg h2] at hc
        cases hc

/-- When every listed tile has a resolved neighbour, the fallible
comprehension succeeds and produces the totalised rows. -/
theorem desirabilityRowChecked_eq (w : World) (ty : TileType) (ts : List Tile)
    (h : ∀ u ∈ ts, w.tile_neighbours u ≠ []) :
    desirabilityRowChecked w ty ts
      = some (ts.map (fun t => (t, w.tile_desirability t ty false))) := by
  induction ts with
  | nil => rfl
  | cons a rest ih =>
    simp only [desirabilityRowChecked]
    rw [tile_desirability_checked_some w a ty false (h a (List.mem_cons_self a rest)),
      Option.some_bind, ih (fun u hu => h u (List.mem_cons_of_mem a hu)),
      Option.map_some', List.map_cons]

/-- C3 counterexample: the original claim fails on the code.  `tLone` is
non-Empty and resolves zero neighbours (reachable through the public
constructor, see the C6 theorem), so `wants_to_move_to_tile` raises
`ZeroDivisionError` while computing the self-desirability — before its
empty-matrix guard — instead of returning "no destination" as the claim
asserts for a tile with no empty neighbours.  The outer `none` models the
escaped exception; "no destination" would be `some none`. -/
theorem c3_counterexample_zero_division :
    tLone.tile_type ≠ TileType.Empty ∧
    wLone.wants_to_move_to_tile_checked tLone = none := by
  decide

/-- C3 (amended): assuming the proposing tile and each of its Empty
neighbours resolve at least one neighbour (so no division can raise; this
holds e.g. on every square grid fully populated by the constructor, and is
the spec's minimum-degree-1 premise), `wants_to_move_to_tile` completes
without fault and: an Empty tile never proposes; a non-empty tile proposes
`d` exactly when the desirability matrix decomposes around an entry `(d, v)`
that is the first maximum of the matrix (everything before it strictly
smaller, nothing after it greater) and `v` strictly exceeds the tile's
self-desirability (`self=true`, candidate type the tile's own); in every
other situation — including an empty matrix, i.e. no empty neighbours — no
destination is returned.  The matrix order is the neighbour enumeration
order, so the first maximum is the first in neighbour enumeration order.
Without the no-empty-neighbour premise the call can instead raise
`ZeroDivisionError`, as the counterexample shows. -/
theorem c3_move_proposal_first_max (w : World) (t : Tile)
    (hself : t.tile_type ≠ TileType.Empty → w.tile_neighbours t ≠ [])
    (hcand : ∀ u ∈ w.tile_neighbours t, u.tile_type = TileType.Empty →
      w.tile_neighbours u ≠ []) :
    w.wants_to_move_to_tile_checked t = some (w.wants_to_move_to_tile t) ∧
    (t.tile_type = TileType.Empty → w.wants_to_move_to_tile t = none) ∧
    (t.tile_type ≠ TileType.Empty →
      ∀ d : Tile, (w.wants_to_move_to_tile t = some d ↔
        ∃ v l1 l2, w.desirability_matrix t = l1 ++ (d, v) :: l2 ∧
          (∀ p ∈ l1, p.2 < v) ∧ (∀ p ∈ l2, p.2 ≤ v) ∧
          w.tile_desirability t t.tile_type true < v)) := by
  refine ⟨?_, ?_, ?_⟩
  · unfold World.wants_to_move_to_tile_checked World.wants_to_move_to_tile
    by_cases he : t.tile_type = TileType.Empty
    · rw [if_pos he, if_pos he]
    · rw [if_neg he, if_neg he]
      rw [tile_desirability_checked_some w t t.tile_type true (hself he),
        Option.some_bind]
      have hmat : w.desirability_matrix_checked t = some (w.desirability_matrix t) := by
        unfold World.desirability_matrix_checked World.desirability_matrix
        refine desirabilityRowChecked_eq w t.tile_type _ ?_
        intro u hu
        have hu' := List.mem_filter.mp hu
        exact hcand u hu'.1 (by simpa using hu'.2)
      rw [hmat, Option.map_some']
  · intro h
    unfold World.wants_to_move_to_tile
    rw [if_pos h]
  · intro hne d
    unfold World.wants_to_move_to_tile
    rw [if_neg hne]
    cases hm : pymax (w.desirability_matrix t) with
    | none =>
      rw [Option.none_bind]
      rw [pymax_eq_none] at hm
      constructor
      · intro h
        cases h
      · rintro ⟨v, l1, l2, hsplit, -, -, -⟩
        rw [hm] at hsplit
        exact absurd hsplit.symm (List.append_ne_nil_of_right_ne_nil _ (by simp))
    | some m =>
      rw [Option.some_bind]
      by_cases hlt : w.tile_desirability t t.tile_type true < m.2
      · rw [if_pos hlt]
        constructor
        · intro h
          obtain ⟨l1, l2, hs, h1, h2⟩ := (pymax_eq_some_iff _ _).mp hm
          obtain rfl : m.1 = d := Option.some.inj h
          exact ⟨m.2, l1, l2, hs, h1, h2, hlt⟩
        · rintro ⟨v, l1, l2, hsplit, h1, h2, hv⟩
          have hp : pymax (w.desirability_matrix t) = some (d, v) :=
            (pymax_eq_some_iff _ _).mpr ⟨l1, l2, hsplit, h1, h2⟩
          rw [hm] at hp
          rw [Option.some.inj hp]
      · rw [if_neg hlt]
        constructor
        · intro h
          cases h
        · rintro ⟨v, l1, l2, hsplit, h1, h2, hv⟩
          have hp : pymax (w.desirability_matrix t) = some (d, v) :=
            (pymax_eq_some_iff _ _).mpr ⟨l1, l2, hsplit, h1, h2⟩
          rw [hm] at hp
          rw [Option.some.inj hp] at hlt
          exact absurd hv hlt

/-- Witness for C3 at the Green tile of `wMove`: the checked call completes
without fault and the tile proposes the center. -/
theorem c3_witness :
    wMove.wants_to_move_to_tile_checked tGreenMove
        = some (wMove.wants_to_move_to_tile tGreenMove) ∧
    ∃ v l1 l2, wMove.desirability_matrix tGreenMove = l1 ++ (mkT .Empty 0 0 4, v) :: l2 ∧
      (∀ p ∈ l1, p.2 < v) ∧ (∀ p ∈ l2, p.2 ≤ v) ∧
      wMove.tile_desirability tGreenMove tGreenMove.tile_type true < v :=
  ⟨(c3_move_proposal_first_max wMove tGreenMove (by decide) (by decide)).1,
   ((c3_move_proposal_first_max wMove tGreenMove (by decide) (by decide)).2.2
      (by decide) (mkT .Empty 0 0 4)).mp (by decide)⟩

/-! Characterisation of Python's `min` and of `unique_min_des` (claim C2). -/

/-- The fold of `pymin` returns an element among the accumulator and the
list, and its score is a lower bound of both. -/
theorem foldl_pick_min_spec (xs : List (Tile × ℚ)) (acc : Tile × ℚ) :
    (xs.foldl (fun a p => if p.2 < a.2 then p else a) acc = acc ∨
      xs.foldl (fun a p => if p.2 < a.2 then p else a) acc ∈ xs) ∧
    (xs.foldl (fun a p => if p.2 < a.2 then p else a) acc).2 ≤ acc.2 ∧
    ∀ q ∈ xs, (xs.foldl (fun a p => if p.2 < a.2 then p else a) acc).2 ≤ q.2 := by
  induction xs generalizing acc with
  | nil => simp
  | cons p rest ih =>
    simp only [List.foldl_cons]
    by_cases hc : p.2 < acc.2
    · rw [if_pos hc]
      obtain ⟨hmem, hacc, hall⟩ := ih p
      refine ⟨?_, le_trans hacc (le_of_lt hc), ?_⟩
      · rcases hmem with h | h
        · refine Or.inr ?_
          rw [h]
          exact List.mem_cons_self p rest
        · exact Or.inr (List.mem_cons_of_mem p h)
      · intro q hq
        rcases List.mem_cons.mp hq with rfl | hq
        · exact hacc
        · exact hall q hq
    · rw [if_neg hc]
      push_neg at hc
      obtain ⟨hmem, hacc, hall⟩ := ih acc
      refine ⟨?_, hacc, ?_⟩
      · rcases hmem with h | h
        · exact Or.inl h
        · exact Or.inr (List.mem_cons_of_mem p h)
      · intro q hq
        rcases List.mem_cons.mp hq with rfl | hq
        · exact le_trans hacc hc
        · exact hall q hq

/-- `pymin` of a nonempty list is a member attaining the minimum. -/
theorem pymin_spec {l : List (Tile × ℚ)} {m : Tile × ℚ} (h : pymin l = some m) :
    m ∈ l ∧ ∀ q ∈ l, m.2 ≤ q.2 := by
  cases l with
  | nil => simp [pymin] at h
  | cons x xs =>
    simp only [pymin, Option.some.injEq] at h
    obtain ⟨hmem, hacc, hall⟩ := foldl_pick_min_spec xs x
    subst h
    refine ⟨?_, ?_⟩
    · rcases hmem with h | h
      · rw [h]
        exact List.mem_cons_self x xs
      · exact List.mem_cons_of_mem x h
    · intro q hq
      rcases List.mem_cons.mp hq with rfl | hq
      · exact hacc
      · exact hall q hq

/-- `pymin` fails exactly on the empty list (where Python raises). -/
theorem pymin_eq_none (l : List (Tile × ℚ)) : pymin l = none ↔ l = [] := by
  cases l with
  | nil => simp [pymin]
  | cons x xs => simp [pymin]

/-- An accepted conflict winner was one of the conflicting proposers. -/
theorem unique_min_des_mem {l : List (Tile × ℚ)} {t : Tile}
    (h : unique_min_des l = some t) : ∃ v, (t, v) ∈ l := by
  unfold unique_min_des at h
  cases hm : pymin l with
  | none =>
    rw [hm] at h
    cases h
  | some m =>
    rw [hm, Option.some_bind] at h
    by_cases hc : 1 < (l.filter (fun p => p.2 = m.2)).length
    · rw [if_pos hc] at h
      cases h
    · rw [if_neg hc] at h
      obtain rfl : m.1 = t := Option.some.inj h
      exact ⟨m.2, (pymin_spec hm).1⟩

/-- When exactly one conflicting proposal has a score `≤ v` and `(p, v)` is
among the proposals, `p` wins the conflict. -/
theorem unique_min_des_eq_some {l : List (Tile × ℚ)} {p : Tile} {v : ℚ}
    (hmem : (p, v) ∈ l)
    (huniq : (l.filter (fun q => q.2 ≤ v)).length = 1) :
    unique_min_des l = some p := by
  cases hm : pymin l with
  | none =>
    rw [pymin_eq_none] at hm
    rw [hm] at hmem
    cases hmem
  | some m =>
    obtain ⟨hmmem, hmin⟩ := pymin_spec hm
    have hpv : (p, v) ∈ l.filter (fun q => q.2 ≤ v) :=
      List.mem_filter.mpr ⟨hmem, by simp⟩
    obtain ⟨a, ha⟩ := List.length_eq_one.mp huniq
    have hpa : (p, v) = a := by
      rw [ha] at hpv
      simpa using hpv
    have hmv : m.2 ≤ v := hmin (p, v) hmem
    have hmf : m ∈ l.filter (fun q => q.2 ≤ v) :=
      List.mem_filter.mpr ⟨hmmem, by simpa using hmv⟩
    have hmp : m = (p, v) := by
      rw [ha] at hmf
      simp only [List.mem_singleton] at hmf
      rw [hmf, ← hpa]
    unfold unique_min_des
    rw [hm, Option.some_bind]
    have hsub : (l.filter (fun q => q.2 = m.2)).length
        ≤ (l.filter (fun q => q.2 ≤ v)).length := by
      apply List.Sublist.length_le
      apply List.monotone_filter_right
      intro q hq
      simp only [decide_eq_true_eq] at hq ⊢
      rw [hq, hmp]
    rw [huniq] at hsub
    rw [if_neg (by omega), hmp]

/-- When the minimum score `v` is attained by at least two conflicting
proposals, nobody wins the conflict. -/
theorem unique_min_des_eq_none {l : List (Tile × ℚ)} {v : ℚ}
    (hlb : ∀ q ∈ l, v ≤ q.2)
    (htie : 2 ≤ (l.filter (fun q => q.2 = v)).length) :
    unique_min_des l = none := by
  cases hm : pymin l with
  | none =>
    unfold unique_min_des
    rw [hm]
    rfl
  | some m =>
    obtain ⟨hmmem, hmin⟩ := pymin_spec hm
    have hne : l.filter (fun q => q.2 = v) ≠ [] := by
      intro hc
      rw [hc] at htie
      simp at htie
    obtain ⟨a, ha⟩ := List.exists_mem_of_ne_nil _ hne
    obtain ⟨haml, hav⟩ := List.mem_filter.mp ha
    have hav' : a.2 = v := by simpa using hav
    have hm2 : m.2 = v := le_antisymm (hav' ▸ hmin a haml) (hlb m hmmem)
    unfold unique_min_des
    rw [hm, Option.some_bind]
    have hfeq : (l.filter (fun q => q.2 = m.2)) = l.filter (fun q => q.2 = v) := by
      rw [hm2]
    rw [hfeq]
    rw [if_pos (by omega)]

/-! Structure of the `rem_dups` loop. -/

/-- `remDupsGo` only appends to the `nd` accumulator; neither the branch
conditions nor the conflicts depend on it. -/
theorem remDupsGo_nd_accum (r : List MoveProposal) :
    ∀ kd nd cf, remDupsGo r kd nd cf
      = (nd ++ (remDupsGo r kd [] cf).1, (remDupsGo r kd [] cf).2) := by
  induction r with
  | nil =>
    intro kd nd cf
    simp [remDupsGo]
  | cons p rest ih =>
    intro kd nd cf
    unfold remDupsGo
    by_cases h1 : kdMem kd p.2.tile_id
    · rw [if_pos h1, if_pos h1]
      exact ih kd nd (cfAppend cf p.2 p.1)
    · rw [if_neg h1, if_neg h1]
      by_cases h2 : hasDest rest p.2.tile_id
      · rw [if_pos h2, if_pos h2]
        exact ih (kd ++ [p.2]) nd (cfInsert cf p.2 p.1)
      · rw [if_neg h2, if_neg h2]
        rw [ih kd (nd ++ [(p.1.1, p.2)]) cf, ih kd ([] ++ [(p.1.1, p.2)]) cf]
        simp

/-- `kdMem` over an appended list. -/
theorem kdMem_append_left {kd : List Tile} {i : Int} (l : List Tile)
    (h : kdMem kd i = true) : kdMem (kd ++ l) i = true := by
  unfold kdMem at h ⊢
  rw [List.any_append, h]
  rfl

/-- `cfAppend` leaves the keys unchanged. -/
theorem cfAppend_keys (cf : Conflicts) (d : Tile) (p : Tile × ℚ) :
    (cfAppend cf d p).map (fun e => e.1) = cf.map (fun e => e.1) := by
  unfold cfAppend
  rw [List.map_map]
  apply List.map_congr_left
  intro e _
  simp only [Function.comp_apply]
  by_cases h : e.1.tile_id = d.tile_id
  · rw [if_pos h]
  · rw [if_neg h]

/-- Appending to a conflicts key extends exactly that key's list. -/
theorem cfLookup_append_eq (cf : Conflicts) (d : Tile) (p : Tile × ℚ) :
    cfLookup (cfAppend cf d p) d.tile_id
      = (cfLookup cf d.tile_id).map (fun l => l ++ [p]) := by
  unfold cfLookup cfAppend
  rw [List.find?_map]
  have hpred : (fun e : Tile × List (Tile × ℚ) => decide (e.1.tile_id = d.tile_id)) ∘
      (fun e : Tile × List (Tile × ℚ) =>
        if e.1.tile_id = d.tile_id then (e.1, e.2 ++ [p]) else e)
      = fun e : Tile × List (Tile × ℚ) => decide (e.1.tile_id = d.tile_id) := by
    funext e
    simp only [Function.comp_apply]
    by_cases h : e.1.tile_id = d.tile_id
    · rw [if_pos h]
    · rw [if_neg h]
  rw [hpred]
  cases hf : cf.find? (fun e => e.1.tile_id = d.tile_id) with
  | none => rfl
  | some e =>
    have he : e.1.tile_id = d.tile_id := by simpa using List.find?_some hf
    simp [he]

/-- Appending to a conflicts key leaves the other keys' lookups unchanged. -/
theorem cfLookup_append_ne (cf : Conflicts) (d : Tile) (p : Tile × ℚ) (i : Int)
    (hne : i ≠ d.tile_id) :
    cfLookup (cfAppend cf d p) i = cfLookup cf i := by
  unfold cfLookup cfAppend
  rw [List.find?_map]
  have hpred : (fun e : Tile × List (Tile × ℚ) => decide (e.1.tile_id = i)) ∘
      (fun e : Tile × List (Tile × ℚ) =>
        if e.1.tile_id = d.tile_id then (e.1, e.2 ++ [p]) else e)
      = fun e : Tile × List (Tile × ℚ) => decide (e.1.tile_id = i) := by
    funext e
    simp only [Function.comp_apply]
    by_cases h : e.1.tile_id = d.tile_id
    · rw [if_pos h]
    · rw [if_neg h]
  rw [hpred]
  cases hf : cf.find? (fun e => e.1.tile_id = i) with
  | none => rfl
  | some e =>
    have he : e.1.tile_id = i := by simpa using List.find?_some hf
    have hned : ¬ (e.1.tile_id = d.tile_id) := by
      rw [he]
      exact hne
    simp [hned]

/-- Inserting a fresh conflicts key leaves the other keys unchanged. -/
theorem cfLookup_insert_ne (cf : Conflicts) (d : Tile) (p : Tile × ℚ) (i : Int)
    (hne : i ≠ d.tile_id) :
    cfLookup (cfInsert cf d p) i = cfLookup cf i := by
  unfold cfLookup cfInsert
  rw [List.find?_append]
  have hsingle : List.find? (fun e : Tile × List (Tile × ℚ) => e.1.tile_id = i)
      [(d, [p])] = none := by
    rw [List.find?_cons_of_neg]
    · rfl
    · simp
      exact fun hc => hne hc.symm
  rw [hsingle]
  cases cf.find? (fun e : Tile × List (Tile × ℚ) => e.1.tile_id = i) with
  | none => rfl
  | some e => rfl

/-- Inserting a fresh conflicts key makes its lookup the singleton. -/
theorem cfLookup_insert_eq (cf : Conflicts) (d : Tile) (p : Tile × ℚ)
    (hnone : cfLookup cf d.tile_id = none) :
    cfLookup (cfInsert cf d p) d.tile_id = some [p] := by
  unfold cfLookup at hnone ⊢
  unfold cfInsert
  rw [List.find?_append, Option.map_eq_none'.mp hnone]
  rw [List.find?_cons_of_pos _ (by simp)]
  rfl

/-- Once a destination id is in `known_duplicates`, the rest of the loop
appends every proposal to that destination to its conflicts entry. -/
theorem remDupsGo_cf_of_kd (r : List MoveProposal) :
    ∀ kd nd cf i, kdMem kd i = true →
      cfLookup (remDupsGo r kd nd cf).2 i
        = (cfLookup cf i).map (fun l => l ++ destProps r i) := by
  induction r with
  | nil =>
    intro kd nd cf i _
    cases h : cfLookup cf i <;> simp [remDupsGo, destProps, h]
  | cons p rest ih =>
    intro kd nd cf i hkd
    unfold remDupsGo
    by_cases hp : p.2.tile_id = i
    · subst hp
      rw [if_pos hkd]
      rw [ih kd nd (cfAppend cf p.2 p.1) p.2.tile_id hkd]
      rw [cfLookup_append_eq cf p.2 p.1]
      cases cfLookup cf p.2.tile_id <;> simp [destProps, List.filter_cons]
    · have hdest : destProps (p :: rest) i = destProps rest i := by
        simp [destProps, List.filter_cons, hp]
      by_cases h1 : kdMem kd p.2.tile_id
      · rw [if_pos h1]
        rw [ih kd nd _ i hkd]
        rw [cfLookup_append_ne cf p.2 p.1 i (fun hc => hp hc.symm), hdest]
      · rw [if_neg h1]
        by_cases h2 : hasDest rest p.2.tile_id
        · rw [if_pos h2]
          rw [ih (kd ++ [p.2]) nd _ i (kdMem_append_left _ hkd)]
          rw [cfLookup_insert_ne cf p.2 p.1 i (fun hc => hp hc.symm), hdest]
        · rw [if_neg h2]
          rw [ih kd _ cf i hkd, hdest]

/-- A destination id with no occurrence in the remaining proposals keeps its
conflicts entry, and contributes nothing new to `non_duplicates`. -/
theorem remDupsGo_no_occ (r : List MoveProposal) :
    ∀ kd nd cf i, (∀ q ∈ r, q.2.tile_id ≠ i) →
      cfLookup (remDupsGo r kd nd cf).2 i = cfLookup cf i ∧
      ∀ x ∈ (remDupsGo r kd nd cf).1, x.2.tile_id = i → x ∈ nd := by
  induction r with
  | nil =>
    intro kd nd cf i _
    exact ⟨rfl, fun x hx _ => by simpa [remDupsGo] using hx⟩
  | cons p rest ih =>
    intro kd nd cf i hno
    have hpne : p.2.tile_id ≠ i := hno p (List.mem_cons_self p rest)
    have hno' : ∀ q ∈ rest, q.2.tile_id ≠ i :=
      fun q hq => hno q (List.mem_cons_of_mem p hq)
    unfold remDupsGo
    by_cases h1 : kdMem kd p.2.tile_id
    · rw [if_pos h1]
      obtain ⟨hcf, hnd⟩ := ih kd nd _ i hno'
      exact ⟨hcf.trans (cfLookup_append_ne cf p.2 p.1 i (fun hc => hpne hc.symm)), hnd⟩
    · rw [if_neg h1]
      by_cases h2 : hasDest rest p.2.tile_id
      · rw [if_pos h2]
        obtain ⟨hcf, hnd⟩ := ih (kd ++ [p.2]) nd _ i hno'
        exact ⟨hcf.trans (cfLookup_insert_ne cf p.2 p.1 i (fun hc => hpne hc.symm)), hnd⟩
      · rw [if_neg h2]
        obtain ⟨hcf, hnd⟩ := ih kd (nd ++ [(p.1.1, p.2)]) cf i hno'
        refine ⟨hcf, ?_⟩
        intro x hx hxi
        rcases List.mem_append.mp (hnd x hx hxi) with h | h
        · exact h
        · simp only [List.mem_singleton] at h
          rw [h] at hxi
          exact absurd hxi hpne

/-- Once a destination id is in `known_duplicates`, no proposal to it is
ever added to `non_duplicates`. -/
theorem remDupsGo_nd_of_kd (r : List MoveProposal) :
    ∀ kd nd cf i, kdMem kd i = true →
      ∀ x ∈ (remDupsGo r kd nd cf).1, x.2.tile_id = i → x ∈ nd := by
  induction r with
  | nil =>
    intro kd nd cf i _ x hx _
    simpa [remDupsGo] using hx
  | cons p rest ih =>
    intro kd nd cf i hkd
    unfold remDupsGo
    by_cases h1 : kdMem kd p.2.tile_id
    · rw [if_pos h1]
      exact ih kd nd _ i hkd
    · rw [if_neg h1]
      by_cases h2 : hasDest rest p.2.tile_id
      · rw [if_pos h2]
        exact ih (kd ++ [p.2]) nd _ i (kdMem_append_left _ hkd)
      · rw [if_neg h2]
        intro x hx hxi
        rcases List.mem_append.mp (ih kd (nd ++ [(p.1.1, p.2)]) cf i hkd x hx hxi) with h | h
        · exact h
        · simp only [List.mem_singleton] at h
          rw [h] at hxi
          rw [hxi] at h1
          exact absurd hkd h1

/-- A destination proposed exactly once goes straight to `non_duplicates`
and never acquires a conflicts entry. -/
theorem remDupsGo_single (r : List MoveProposal) :
    ∀ kd nd cf p, kdMem kd p.2.tile_id = false →
      r.filter (fun q => q.2.tile_id = p.2.tile_id) = [p] →
      (p.1.1, p.2) ∈ (remDupsGo r kd nd cf).1 ∧
      cfLookup (remDupsGo r kd nd cf).2 p.2.tile_id = cfLookup cf p.2.tile_id := by
  induction r with
  | nil =>
    intro kd nd cf p _ hf
    simp at hf
  | cons q rest ih =>
    intro kd nd cf p hkd hf
    by_cases hq : q.2.tile_id = p.2.tile_id
    · rw [List.filter_cons_of_pos (by simpa using hq)] at hf
      obtain ⟨rfl, hrest⟩ := List.cons.inj hf
      have hnorest : ∀ x ∈ rest, x.2.tile_id ≠ q.2.tile_id := by
        intro x hx hc
        have hxin : x ∈ rest.filter (fun q' => q'.2.tile_id = q.2.tile_id) :=
          List.mem_filter.mpr ⟨hx, by simpa using hc⟩
        rw [hrest] at hxin
        cases hxin
      have hhas : hasDest rest q.2.tile_id = false := by
        unfold hasDest
        rw [List.any_eq_false]
        intro x hx
        simpa using hnorest x hx
      unfold remDupsGo
      rw [if_neg (by simp [hkd]), if_neg (by simp [hhas])]
      obtain ⟨hcf, -⟩ := remDupsGo_no_occ rest kd (nd ++ [(q.1.1, q.2)]) cf q.2.tile_id hnorest
      refine ⟨?_, hcf⟩
      rw [remDupsGo_nd_accum]
      exact List.mem_append_left _ (List.mem_append_right _ (by simp))
    · rw [List.filter_cons_of_neg (by simpa using hq)] at hf
      unfold remDupsGo
      by_cases h1 : kdMem kd q.2.tile_id
      · rw [if_pos h1]
        obtain ⟨hmem, hcf⟩ := ih kd nd _ p hkd hf
        exact ⟨hmem,
          hcf.trans (cfLookup_append_ne cf q.2 q.1 p.2.tile_id (fun hc => hq hc.symm))⟩
      · rw [if_neg h1]
        by_cases h2 : hasDest rest q.2.tile_id
        · rw [if_pos h2]
          have hkd' : kdMem (kd ++ [q.2]) p.2.tile_id = false := by
            unfold kdMem at hkd ⊢
            rw [List.any_append]
            simp [hkd, hq]
          obtain ⟨hmem, hcf⟩ := ih (kd ++ [q.2]) nd _ p hkd' hf
          exact ⟨hmem,
            hcf.trans (cfLookup_insert_ne cf q.2 q.1 p.2.tile_id (fun hc => hq hc.symm))⟩
        · rw [if_neg h2]
          exact ih kd (nd ++ [(q.1.1, q.2)]) cf p hkd hf

/-- A destination proposed at least twice ends with a conflicts entry
holding exactly its proposers, and contributes nothing to
`non_duplicates`. -/
theorem remDupsGo_dup (r : List MoveProposal) :
    ∀ kd nd cf i, kdMem kd i = false → cfLookup cf i = none →
      2 ≤ (r.filter (fun q => q.2.tile_id = i)).length →
      cfLookup (remDupsGo r kd nd cf).2 i = some (destProps r i) ∧
      ∀ x ∈ (remDupsGo r kd nd cf).1, x.2.tile_id = i → x ∈ nd := by
  induction r with
  | nil =>
    intro kd nd cf i _ _ h2
    simp at h2
  | cons p rest ih =>
    intro kd nd cf i hkd hcf h2
    by_cases hp : p.2.tile_id = i
    · subst hp
      rw [List.filter_cons_of_pos (by simp)] at h2
      simp only [List.length_cons] at h2
      have hrest1 : 1 ≤ (rest.filter (fun q => q.2.tile_id = p.2.tile_id)).length := by
        omega
      have hhas : hasDest rest p.2.tile_id = true := by
        unfold hasDest
        rw [List.any_eq_true]
        have hne : rest.filter (fun q => q.2.tile_id = p.2.tile_id) ≠ [] := by
          intro hc
          rw [hc] at hrest1
          simp at hrest1
        obtain ⟨x, hx⟩ := List.exists_mem_of_ne_nil _ hne
        obtain ⟨hxm, hxp⟩ := List.mem_filter.mp hx
        exact ⟨x, hxm, hxp⟩
      unfold remDupsGo
      rw [if_neg (by simp [hkd]), if_pos hhas]
      have hkd' : kdMem (kd ++ [p.2]) p.2.tile_id = true := by
        unfold kdMem
        rw [List.any_append]
        simp
      rw [remDupsGo_cf_of_kd rest (kd ++ [p.2]) nd _ p.2.tile_id hkd']
      rw [cfLookup_insert_eq cf p.2 p.1 hcf]
      refine ⟨?_, remDupsGo_nd_of_kd rest (kd ++ [p.2]) nd _ p.2.tile_id hkd'⟩
      simp [destProps, List.filter_cons]
    · rw [List.filter_cons_of_neg (by simpa using hp)] at h2
      have hdest : destProps (p :: rest) i = destProps rest i := by
        simp [destProps, List.filter_cons, hp]
      unfold remDupsGo
      by_cases h1 : kdMem kd p.2.tile_id
      · rw [if_pos h1]
        obtain ⟨hcf', hnd⟩ := ih kd nd _ i hkd
          (by rw [cfLookup_append_ne cf p.2 p.1 i (fun hc => hp hc.symm)]; exact hcf) h2
        refine ⟨?_, hnd⟩
        rw [hdest]
        exact hcf'
      · rw [if_neg h1]
        by_cases h2' : hasDest rest p.2.tile_id
        · rw [if_pos h2']
          have hkd' : kdMem (kd ++ [p.2]) i = false := by
            unfold kdMem at hkd ⊢
            rw [List.any_append]
            simp [hkd, hp]
          obtain ⟨hcf', hnd⟩ := ih (kd ++ [p.2]) nd _ i hkd'
            (by rw [cfLookup_insert_ne cf p.2 p.1 i (fun hc => hp hc.symm)]; exact hcf) h2
          refine ⟨?_, hnd⟩
          rw [hdest]
          exact hcf'
        · rw [if_neg h2']
          obtain ⟨hcf', hnd⟩ := ih kd (nd ++ [(p.1.1, p.2)]) cf i hkd hcf h2
          refine ⟨?_, ?_⟩
          · rw [hdest]
            exact hcf'
          · intro x hx hxi
            rcases List.mem_append.mp (hnd x hx hxi) with h | h
            · exact h
            · simp only [List.mem_singleton] at h
              rw [h] at hxi
              exact absurd hxi hp

/-- Invariant run of the loop: `non_duplicates` destination ids and
conflicts keys stay pairwise distinct and mutually disjoint. -/
theorem remDupsGo_nodup (r : List MoveProposal) :
    ∀ kd nd cf,
      (nd.map (fun x => x.2.tile_id)).Nodup →
      (cf.map (fun e => e.1.tile_id)).Nodup →
      (∀ x ∈ nd, x.2.tile_id ∉ cf.map (fun e => e.1.tile_id)) →
      (∀ x ∈ nd, ∀ q ∈ r, q.2.tile_id ≠ x.2.tile_id) →
      (∀ i ∈ cf.map (fun e => e.1.tile_id), kdMem kd i = true) →
      ((remDupsGo r kd nd cf).1.map (fun x => x.2.tile_id)).Nodup ∧
      ((remDupsGo r kd nd cf).2.map (fun e => e.1.tile_id)).Nodup ∧
      (∀ x ∈ (remDupsGo r kd nd cf).1,
        x.2.tile_id ∉ (remDupsGo r kd nd cf).2.map (fun e => e.1.tile_id)) := by
  induction r with
  | nil =>
    intro kd nd cf h1 h2 h3 _ _
    exact ⟨by simpa [remDupsGo] using h1, by simpa [remDupsGo] using h2,
      by simpa [remDupsGo] using h3⟩
  | cons p rest ih =>
    intro kd nd cf h1 h2 h3 h4 h5
    unfold remDupsGo
    by_cases hk : kdMem kd p.2.tile_id
    · rw [if_pos hk]
      have hkeys : (cfAppend cf p.2 p.1).map (fun e => e.1.tile_id)
          = cf.map (fun e => e.1.tile_id) := by
        have hk2 := congrArg (List.map (fun t : Tile => t.tile_id)) (cfAppend_keys cf p.2 p.1)
        rw [List.map_map, List.map_map] at hk2
        exact hk2
      refine ih kd nd _ h1 (by rw [hkeys]; exact h2)
        (fun x hx => by rw [hkeys]; exact h3 x hx)
        (fun x hx q hq => h4 x hx q (List.mem_cons_of_mem p hq))
        (fun i hi => h5 i (by rwa [hkeys] at hi))
    · rw [if_neg hk]
      by_cases hh : hasDest rest p.2.tile_id
      · rw [if_pos hh]
        have hnewkey : p.2.tile_id ∉ cf.map (fun e => e.1.tile_id) := by
          intro hc
          exact hk (h5 _ hc)
        have hkeys : (cfInsert cf p.2 p.1).map (fun e => e.1.tile_id)
            = cf.map (fun e => e.1.tile_id) ++ [p.2.tile_id] := by
          simp [cfInsert]
        refine ih (kd ++ [p.2]) nd _ h1 ?_ ?_
          (fun x hx q hq => h4 x hx q (List.mem_cons_of_mem p hq)) ?_
        · rw [hkeys]
          refine List.Nodup.append h2 (by simp) ?_
          intro a ha hb
          simp only [List.mem_singleton] at hb
          rw [hb] at ha
          exact hnewkey ha
        · intro x hx
          rw [hkeys, List.mem_append]
          push_neg
          refine ⟨h3 x hx, ?_⟩
          simp only [List.mem_singleton]
          exact fun hc => h4 x hx p (List.mem_cons_self p rest) hc.symm
        · intro i hi
          rw [hkeys, List.mem_append] at hi
          rcases hi with hi | hi
          · exact kdMem_append_left _ (h5 i hi)
          · simp only [List.mem_singleton] at hi
            subst hi
            unfold kdMem
            rw [List.any_append]
            simp
      · rw [if_neg hh]
        have hnof : ∀ q ∈ rest, q.2.tile_id ≠ p.2.tile_id := by
          unfold hasDest at hh
          rw [Bool.not_eq_true, List.any_eq_false] at hh
          intro q hq
          simpa using hh q hq
        refine ih kd (nd ++ [(p.1.1, p.2)]) cf ?_ h2 ?_ ?_ h5
        · rw [List.map_append]
          refine List.Nodup.append h1 (by simp) ?_
          intro a ha hb
          simp only [List.map_cons, List.map_nil, List.mem_singleton] at hb
          obtain ⟨x, hx, rfl⟩ := List.mem_map.mp ha
          exact h4 x hx p (List.mem_cons_self p rest) hb.symm
        · intro x hx
          rcases List.mem_append.mp hx with hx | hx
          · exact h3 x hx
          · simp only [List.mem_singleton] at hx
            subst hx
            intro hc
            exact hk (h5 _ hc)
        · intro x hx q hq
          rcases List.mem_append.mp hx with hx | hx
          · exact h4 x hx q (List.mem_cons_of_mem p hq)
          · simp only [List.mem_singleton] at hx
            subst hx
            exact hnof q hq

/-- Source tracking through the loop, parametrised over the invariants `P`
of accepted pairs, `Q` of conflicts-list entries and `K` of conflicts
keys. -/
theorem remDupsGo_sources (r : List MoveProposal)
    (P : Tile × Tile → Prop) (Q : Tile → (Tile × ℚ) → Prop) (K : Tile → Prop)
    (hQid : ∀ d d' x, d.tile_id = d'.tile_id → Q d x → Q d' x) :
    ∀ kd nd cf,
      (∀ x ∈ nd, P x) →
      (∀ e ∈ cf, K e.1 ∧ ∀ x ∈ e.2, Q e.1 x) →
      (∀ p ∈ r, P (p.1.1, p.2)) →
      (∀ p ∈ r, Q p.2 p.1) →
      (∀ p ∈ r, K p.2) →
      (∀ x ∈ (remDupsGo r kd nd cf).1, P x) ∧
      (∀ e ∈ (remDupsGo r kd nd cf).2, K e.1 ∧ ∀ x ∈ e.2, Q e.1 x) := by
  induction r with
  | nil =>
    intro kd nd cf hnd hcf _ _ _
    exact ⟨by simpa [remDupsGo] using hnd, by simpa [remDupsGo] using hcf⟩
  | cons p rest ih =>
    intro kd nd cf hnd hcf hP hQ hK
    have hP' := fun q hq => hP q (List.mem_cons_of_mem p hq)
    have hQ' := fun q hq => hQ q (List.mem_cons_of_mem p hq)
    have hK' := fun q hq => hK q (List.mem_cons_of_mem p hq)
    unfold remDupsGo
    by_cases hk : kdMem kd p.2.tile_id
    · rw [if_pos hk]
      refine ih kd nd _ hnd ?_ hP' hQ' hK'
      intro e' he'
      obtain ⟨e, he, hee⟩ := List.mem_map.mp he'
      by_cases hid : e.1.tile_id = p.2.tile_id
      · rw [if_pos hid] at hee
        subst hee
        refine ⟨(hcf e he).1, ?_⟩
        intro x hx
        rcases List.mem_append.mp hx with hx | hx
        · exact (hcf e he).2 x hx
        · simp only [List.mem_singleton] at hx
          subst hx
          exact hQid p.2 e.1 p.1 hid.symm (hQ p (List.mem_cons_self p rest))
      · rw [if_neg hid] at hee
        subst hee
        exact hcf e he
    · rw [if_neg hk]
      by_cases hh : hasDest rest p.2.tile_id
      · rw [if_pos hh]
        refine ih (kd ++ [p.2]) nd _ hnd ?_ hP' hQ' hK'
        intro e he
        rcases List.mem_append.mp he with he | he
        · exact hcf e he
        · simp only [List.mem_singleton] at he
          subst he
          refine ⟨hK p (List.mem_cons_self p rest), ?_⟩
          intro x hx
          simp only [List.mem_singleton] at hx
          subst hx
          exact hQ p (List.mem_cons_self p rest)
      · rw [if_neg hh]
        refine ih kd (nd ++ [(p.1.1, p.2)]) cf ?_ hcf hP' hQ' hK'
        intro x hx
        rcases List.mem_append.mp hx with hx | hx
        · exact hnd x hx
        · simp only [List.mem_singleton] at hx
          subst hx
          exact hP p (List.mem_cons_self p rest)

/-- Every accepted pair's proposer comes from a proposal of `mm` naming a
destination with the accepted pair's destination id, and the accepted
destination tile itself is a destination of `mm`. -/
theorem rem_dups_src (mm : List MoveProposal) :
    ∀ x ∈ rem_dups mm,
      (∃ v d', ((x.1, v), d') ∈ mm ∧ d'.tile_id = x.2.tile_id) ∧
      (∃ p ∈ mm, p.2 = x.2) := by
  intro x hx
  obtain ⟨hnd, hcfg⟩ := remDupsGo_sources mm.reverse
    (fun x => (∃ v d', ((x.1, v), d') ∈ mm ∧ d'.tile_id = x.2.tile_id) ∧
      ∃ p ∈ mm, p.2 = x.2)
    (fun d q => ∃ d', (q, d') ∈ mm ∧ d'.tile_id = d.tile_id)
    (fun d => ∃ p ∈ mm, p.2 = d)
    (by
      rintro d d' q hdd ⟨d'', hm, hid⟩
      exact ⟨d'', hm, hid.trans hdd⟩)
    [] [] []
    (by simp) (by simp)
    (by
      intro p hp
      have hpm : p ∈ mm := List.mem_reverse.mp hp
      exact ⟨⟨p.1.2, p.2, hpm, rfl⟩, ⟨p, hpm, rfl⟩⟩)
    (by
      intro p hp
      exact ⟨p.2, List.mem_reverse.mp hp, rfl⟩)
    (by
      intro p hp
      exact ⟨p, List.mem_reverse.mp hp, rfl⟩)
  unfold rem_dups at hx
  rcases List.mem_append.mp hx with hx1 | hx2
  · exact hnd x hx1
  · obtain ⟨e, he, hee⟩ := List.mem_filterMap.mp hx2
    cases hu : unique_min_des e.2 with
    | none =>
      rw [hu] at hee
      cases hee
    | some u =>
      rw [hu] at hee
      obtain rfl : (u, e.1) = x := Option.some.inj hee
      obtain ⟨hK, hQ⟩ := hcfg e he
      obtain ⟨v, hv⟩ := unique_min_des_mem hu
      obtain ⟨d', hd', hid⟩ := hQ (u, v) hv
      exact ⟨⟨v, d', hd', hid⟩, hK⟩

/-- The resolved-conflict part of the output draws its destination ids from
the conflicts keys, at most once each. -/
theorem rem_dups_resolved_ids_sublist (cf : Conflicts) :
    ((cf.filterMap (fun e => (unique_min_des e.2).map (fun u => (u, e.1)))).map
      (fun x => x.2.tile_id)).Sublist (cf.map (fun e => e.1.tile_id)) := by
  induction cf with
  | nil => simp
  | cons e rest ih =>
    cases hu : unique_min_des e.2 with
    | none =>
      simp only [List.filterMap_cons, hu, Option.map_none', List.map_cons]
      exact ih.cons _
    | some u =>
      simp only [List.filterMap_cons, hu, Option.map_some', List.map_cons]
      exact ih.cons₂ _

/-- The accepted destinations are pairwise distinct (by id). -/
theorem rem_dups_dest_ids_nodup (mm : List MoveProposal) :
    ((rem_dups mm).map (fun x => x.2.tile_id)).Nodup := by
  obtain ⟨h1, h2, h3⟩ := remDupsGo_nodup mm.reverse [] [] []
    (by simp) (by simp) (by simp) (by simp) (by simp)
  unfold rem_dups
  rw [List.map_append]
  refine List.Nodup.append h1 ((rem_dups_resolved_ids_sublist _).nodup h2) ?_
  intro a ha hb
  obtain ⟨x, hx, rfl⟩ := List.mem_map.mp ha
  obtain ⟨y, hy, hxy⟩ := List.mem_map.mp hb
  obtain ⟨e, he, hee⟩ := List.mem_filterMap.mp hy
  cases hu : unique_min_des e.2 with
  | none =>
    rw [hu] at hee
    cases hee
  | some u =>
    rw [hu] at hee
    obtain rfl : (u, e.1) = y := Option.some.inj hee
    apply h3 x hx
    rw [← hxy]
    exact List.mem_map_of_mem (fun e => e.1.tile_id) he

/-- Filtering before or after the loop's reversal counts the same. -/
theorem filter_reverse_length (p : MoveProposal → Bool) (mm : List MoveProposal) :
    (mm.reverse.filter p).length = (mm.filter p).length := by
  rw [List.filter_reverse, List.length_reverse]

/-- Counting the conflicting proposals with score bounded by `v`. -/
theorem destProps_filter_le_length (mm : List MoveProposal) (i : Int) (v : ℚ) :
    ((destProps mm i).filter (fun q => q.2 ≤ v)).length
      = (mm.filter (fun q => q.2.tile_id = i ∧ q.1.2 ≤ v)).length := by
  unfold destProps
  rw [List.filter_map, List.length_map, List.filter_filter]
  congr 1
  apply List.filter_congr
  intro q _
  simp only [Function.comp_apply]
  rw [Bool.and_comm]
  simp

/-- Counting the conflicting proposals with score exactly `v`. -/
theorem destProps_filter_eq_length (mm : List MoveProposal) (i : Int) (v : ℚ) :
    ((destProps mm i).filter (fun q => q.2 = v)).length
      = (mm.filter (fun q => q.2.tile_id = i ∧ q.1.2 = v)).length := by
  unfold destProps
  rw [List.filter_map, List.length_map, List.filter_filter]
  congr 1
  apply List.filter_congr
  intro q _
  simp only [Function.comp_apply]
  rw [Bool.and_comm]
  simp

/-- C2: conflict resolution (`rem_dups` with `unique_min_des`) is a pure
function of the proposal list such that (1) a destination named by exactly
one proposal is accepted unconditionally; (2) with two or more proposers, the
unique proposer whose self-desirability is strictly lower than all the other
proposers' is accepted; (3) when the minimal self-desirability is attained by
two or more proposals, no move to that destination is accepted; and (4) each
destination id appears at most once among the accepted pairs.  The
`hid` hypothesis states that destination tiles are identified consistently
by their id, which is how Python's `Tile.__eq__`/dict semantics reads the
input (it holds for every movement matrix `run_step` builds). -/
theorem c2_conflict_resolution (mm : List MoveProposal)
    (hid : ∀ p ∈ mm, ∀ q ∈ mm, p.2.tile_id = q.2.tile_id → p.2 = q.2) :
    (∀ t : Tile, ∀ v : ℚ, ∀ d : Tile, ((t, v), d) ∈ mm →
      (mm.filter (fun q => q.2.tile_id = d.tile_id)).length = 1 →
      (t, d) ∈ rem_dups mm) ∧
    (∀ t : Tile, ∀ v : ℚ, ∀ d : Tile, ((t, v), d) ∈ mm →
      2 ≤ (mm.filter (fun q => q.2.tile_id = d.tile_id)).length →
      (mm.filter (fun q => q.2.tile_id = d.tile_id ∧ q.1.2 ≤ v)).length = 1 →
      (t, d) ∈ rem_dups mm) ∧
    (∀ d : Tile, ∀ v : ℚ,
      (∀ q ∈ mm, q.2.tile_id = d.tile_id → v ≤ q.1.2) →
      2 ≤ (mm.filter (fun q => q.2.tile_id = d.tile_id ∧ q.1.2 = v)).length →
      ∀ x ∈ rem_dups mm, x.2.tile_id ≠ d.tile_id) ∧
    ((rem_dups mm).map (fun x => x.2.tile_id)).Nodup := by
  refine ⟨?_, ?_, ?_, rem_dups_dest_ids_nodup mm⟩
  · -- (1) unique proposer
    intro t v d hmem hcount
    have hf : mm.filter (fun q => q.2.tile_id = d.tile_id) = [((t, v), d)] := by
      obtain ⟨a, ha⟩ := List.length_eq_one.mp hcount
      have hin : ((t, v), d) ∈ mm.filter (fun q => q.2.tile_id = d.tile_id) :=
        List.mem_filter.mpr ⟨hmem, by simp⟩
      rw [ha] at hin ⊢
      simp only [List.mem_singleton] at hin
      rw [hin]
    have hfr : mm.reverse.filter (fun q => q.2.tile_id = d.tile_id) = [((t, v), d)] := by
      rw [List.filter_reverse, hf]
      rfl
    obtain ⟨hmem', -⟩ := remDupsGo_single mm.reverse [] [] [] ((t, v), d)
      (by simp [kdMem]) hfr
    unfold rem_dups
    exact List.mem_append_left _ hmem'
  · -- (2) strict minimum wins
    intro t v d hmem hcount2 huniq
    have hcount2r : 2 ≤ (mm.reverse.filter (fun q => q.2.tile_id = d.tile_id)).length := by
      rw [filter_reverse_length]
      exact hcount2
    obtain ⟨hcf, -⟩ := remDupsGo_dup mm.reverse [] [] [] d.tile_id
      (by simp [kdMem]) (by simp [cfLookup]) hcount2r
    unfold cfLookup at hcf
    cases hfind : (remDupsGo mm.reverse [] [] []).2.find?
        (fun e => e.1.tile_id = d.tile_id) with
    | none =>
      rw [hfind] at hcf
      cases hcf
    | some e =>
      rw [hfind] at hcf
      have he2 : e.2 = destProps mm.reverse d.tile_id := by simpa using hcf
      have hemem : e ∈ (remDupsGo mm.reverse [] [] []).2 :=
        List.mem_of_find?_eq_some hfind
      have humd : unique_min_des e.2 = some t := by
        rw [he2]
        apply unique_min_des_eq_some (v := v)
        · unfold destProps
          refine List.mem_map.mpr ⟨((t, v), d), ?_, rfl⟩
          exact List.mem_filter.mpr ⟨List.mem_reverse.mpr hmem, by simp⟩
        · rw [destProps_filter_le_length, filter_reverse_length]
          exact huniq
      have hout : (t, e.1) ∈ rem_dups mm := by
        unfold rem_dups
        refine List.mem_append_right _ (List.mem_filterMap.mpr ⟨e, hemem, ?_⟩)
        rw [humd]
        rfl
      obtain ⟨-, p', hp', hpd⟩ := rem_dups_src mm (t, e.1) hout
      have heid : e.1.tile_id = d.tile_id := by
        simpa using List.find?_some hfind
      have hpe : p'.2 = d := by
        apply hid p' hp' ((t, v), d) hmem
        rw [hpd]
        exact heid
      have hed : e.1 = d := by
        rw [hpd] at hpe
        exact hpe
      rw [← hed]
      exact hout
  · -- (3) ties drop the destination
    intro d v hlb htie x hx hxid
    have hsub : (mm.filter (fun q => q.2.tile_id = d.tile_id ∧ q.1.2 = v)).Sublist
        (mm.filter (fun q => q.2.tile_id = d.tile_id)) := by
      apply List.monotone_filter_right
      intro a ha
      simp only [decide_eq_true_eq] at ha ⊢
      exact ha.1
    have hcount2 : 2 ≤ (mm.filter (fun q => q.2.tile_id = d.tile_id)).length :=
      le_trans htie hsub.length_le
    have hcount2r : 2 ≤ (mm.reverse.filter (fun q => q.2.tile_id = d.tile_id)).length := by
      rw [filter_reverse_length]
      exact hcount2
    obtain ⟨hcf, hnd⟩ := remDupsGo_dup mm.reverse [] [] [] d.tile_id
      (by simp [kdMem]) (by simp [cfLookup]) hcount2r
    unfold rem_dups at hx
    rcases List.mem_append.mp hx with hx1 | hx2
    · have := hnd x hx1 hxid
      simp at this
    · obtain ⟨e, he, hee⟩ := List.mem_filterMap.mp hx2
      cases hu : unique_min_des e.2 with
      | none =>
        rw [hu] at hee
        cases hee
      | some u =>
        rw [hu] at hee
        obtain rfl : (u, e.1) = x := Option.some.inj hee
        unfold cfLookup at hcf
        cases hfind : (remDupsGo mm.reverse [] [] []).2.find?
            (fun e => e.1.tile_id = d.tile_id) with
        | none =>
          rw [hfind] at hcf
          cases hcf
        | some e0 =>
          rw [hfind] at hcf
          have he02 : e0.2 = destProps mm.reverse d.tile_id := by simpa using hcf
          have he0mem := List.mem_of_find?_eq_some hfind
          have he0id : e0.1.tile_id = d.tile_id := by
            simpa using List.find?_some hfind
          obtain ⟨-, hkeys, -⟩ := remDupsGo_nodup mm.reverse [] [] []
            (by simp) (by simp) (by simp) (by simp) (by simp)
          have hee0 : e = e0 := by
            apply List.inj_on_of_nodup_map hkeys he he0mem
            exact (show e.1.tile_id = d.tile_id from hxid).trans he0id.symm
          have hnone : unique_min_des e0.2 = none := by
            rw [he02]
            apply unique_min_des_eq_none (v := v)
            · intro q hq
              unfold destProps at hq
              obtain ⟨a, ha, rfl⟩ := List.mem_map.mp hq
              obtain ⟨ham, haid⟩ := List.mem_filter.mp ha
              exact hlb a (List.mem_reverse.mp ham) (by simpa using haid)
            · rw [destProps_filter_eq_length, filter_reverse_length]
              exact htie
          rw [hee0, hnone] at hu
          cases hu

/-- Witness for C2 on the concrete movement matrix `mmEx`: the single
proposal to `dY` is accepted, the strict-minimum proposal `pB` wins `dX`,
and the accepted destinations are distinct. -/
theorem c2_witness :
    (pC, dY) ∈ rem_dups mmEx ∧ (pB, dX) ∈ rem_dups mmEx ∧
      ((rem_dups mmEx).map (fun x => x.2.tile_id)).Nodup := by
  have h := c2_conflict_resolution mmEx (by decide)
  exact ⟨h.1 pC (mkRat 1 1) dY (by decide) (by decide),
    h.2.1 pB (mkRat 1 4) dX (by decide) (by decide) (by decide),
    h.2.2.2⟩

/-! Commit-phase equivalence (claims C4 and C7). -/

/-- Splitting the slot-distinctness of `pr :: rest` into the facts the
commit induction consumes. -/
theorem slots_cons_facts (pr : Tile × Tile) (rest : List (Tile × Tile))
    (h : (slotsOf (pr :: rest)).Nodup) :
    pr.1.tile_position ≠ pr.2.tile_position ∧
    (∀ q ∈ rest, q.1.tile_position ≠ pr.1.tile_position ∧
      q.1.tile_position ≠ pr.2.tile_position ∧
      q.2.tile_position ≠ pr.1.tile_position ∧
      q.2.tile_position ≠ pr.2.tile_position) ∧
    (slotsOf rest).Nodup := by
  unfold slotsOf at h ⊢
  simp only [List.map_cons] at h
  rw [List.nodup_append] at h
  obtain ⟨hL, hR, hdisj⟩ := h
  obtain ⟨hp1, hLnd⟩ := List.nodup_cons.mp hL
  obtain ⟨hp2, hRnd⟩ := List.nodup_cons.mp hR
  refine ⟨?_, ?_, ?_⟩
  · intro hc
    exact hdisj (List.mem_cons_self _ _) (by rw [hc]; exact List.mem_cons_self _ _)
  · intro q hq
    refine ⟨?_, ?_, ?_, ?_⟩
    · intro hc
      exact hp1 (by rw [← hc]; exact List.mem_map_of_mem _ hq)
    · intro hc
      exact hdisj (List.mem_cons_of_mem _ (by rw [← hc]; exact List.mem_map_of_mem _ hq))
        (List.mem_cons_self _ _)
    · intro hc
      exact hdisj (List.mem_cons_self _ _)
        (List.mem_cons_of_mem _ (by rw [← hc]; exact List.mem_map_of_mem _ hq))
    · intro hc
      exact hp2 (by rw [← hc]; exact List.mem_map_of_mem _ hq)
  · rw [List.nodup_append]
    exact ⟨hLnd, hRnd, fun a ha hb =>
      hdisj (List.mem_cons_of_mem _ ha) (List.mem_cons_of_mem _ hb)⟩

/-- One step of the simultaneous commit: committing the head pair first by a
`switch_tiles` and then the rest simultaneously is the same as committing
everything simultaneously, because the head's two slots are disjoint from
every other slot. -/
theorem commit_all_cons (ts : List Tile) (pr : Tile × Tile) (rest : List (Tile × Tile))
    (hnd : (ts.map (fun t => t.tile_position)).Nodup)
    (h1 : pr.1 ∈ ts) (h2 : pr.2 ∈ ts)
    (hslots : (slotsOf (pr :: rest)).Nodup) :
    commit_all (pr :: rest) ts = commit_all rest (switch_tiles ts pr.1 pr.2) := by
  obtain ⟨hAB, hrest, -⟩ := slots_cons_facts pr rest hslots
  unfold commit_all switch_tiles
  rw [tile_at_loc_of_mem hnd h1, tile_at_loc_of_mem hnd h2]
  simp only [Option.getD_some]
  rw [List.map_map]
  apply List.map_congr_left
  intro t ht
  simp only [Function.comp_apply]
  by_cases ht1 : t.tile_position = pr.1.tile_position
  · rw [if_pos ht1]
    rw [List.find?_cons_of_pos _ (by simp [ht1])]
    have hfp : List.find? (fun q : Tile × Tile =>
        q.1.tile_position = (payloadFrom pr.2 t).tile_position) rest = none := by
      rw [List.find?_eq_none]
      intro q hq
      simp only [payloadFrom_pos, decide_eq_true_eq]
      intro hc
      exact (hrest q hq).1 (hc.trans ht1)
    have hfd : List.find? (fun q : Tile × Tile =>
        q.2.tile_position = (payloadFrom pr.2 t).tile_position) rest = none := by
      rw [List.find?_eq_none]
      intro q hq
      simp only [payloadFrom_pos, decide_eq_true_eq]
      intro hc
      exact (hrest q hq).2.2.1 (hc.trans ht1)
    rw [hfp, hfd]
    simp
  · rw [if_neg ht1]
    by_cases ht2 : t.tile_position = pr.2.tile_position
    · rw [if_pos ht2]
      rw [List.find?_cons_of_neg _ (by
        simp only [decide_eq_true_eq]
        intro hc
        exact hAB (by rw [hc, ht2]))]
      have hfp1 : List.find? (fun q : Tile × Tile =>
          q.1.tile_position = t.tile_position) rest = none := by
        rw [List.find?_eq_none]
        intro q hq
        simp only [decide_eq_true_eq]
        intro hc
        exact (hrest q hq).2.1 (hc.trans ht2)
      rw [hfp1]
      rw [List.find?_cons_of_pos _ (by simp [ht2])]
      have hfp2 : List.find? (fun q : Tile × Tile =>
          q.1.tile_position = (payloadFrom pr.1 t).tile_position) rest = none := by
        rw [List.find?_eq_none]
        intro q hq
        simp only [payloadFrom_pos, decide_eq_true_eq]
        intro hc
        exact (hrest q hq).2.1 (hc.trans ht2)
      have hfd2 : List.find? (fun q : Tile × Tile =>
          q.2.tile_position = (payloadFrom pr.1 t).tile_position) rest = none := by
        rw [List.find?_eq_none]
        intro q hq
        simp only [payloadFrom_pos, decide_eq_true_eq]
        intro hc
        exact (hrest q hq).2.2.2 (hc.trans ht2)
      rw [hfp2, hfd2]
      simp
    · rw [if_neg ht2]
      rw [List.find?_cons_of_neg _ (by
        simp only [decide_eq_true_eq]
        intro hc
        exact ht1 hc.symm)]
      rw [List.find?_cons_of_neg _ (by
        simp only [decide_eq_true_eq]
        intro hc
        exact ht2 hc.symm)]

/-- The sequential commit loop equals the simultaneous commit, whenever all
touched slots are pairwise distinct and present. -/
theorem commit_seq_eq_commit_all (ps : List (Tile × Tile)) :
    ∀ ts : List Tile, (ts.map (fun t => t.tile_position)).Nodup →
      (∀ pr ∈ ps, pr.1 ∈ ts ∧ pr.2 ∈ ts) →
      (slotsOf ps).Nodup →
      commit_seq ps ts = commit_all ps ts := by
  induction ps with
  | nil =>
    intro ts hnd _ _
    simp [commit_seq, commit_all]
  | cons pr rest ih =>
    intro ts hnd hmem hslots
    obtain ⟨h1, h2⟩ := hmem pr (List.mem_cons_self pr rest)
    obtain ⟨hAB, hrest, hslots'⟩ := slots_cons_facts pr rest hslots
    rw [commit_all_cons ts pr rest hnd h1 h2 hslots]
    show commit_seq rest (switch_tiles ts pr.1 pr.2) = _
    apply ih
    · rw [switch_tiles_map_pos]
      exact hnd
    · intro q hq
      obtain ⟨hq1, hq2⟩ := hmem q (List.mem_cons_of_mem pr hq)
      obtain ⟨f1, f2, f3, f4⟩ := hrest q hq
      exact ⟨mem_switch_tiles_of_ne hq1 f1 f2, mem_switch_tiles_of_ne hq2 f3 f4⟩
    · exact hslots'

/-- With at most one match in the list (unique keys), `find?` does not
depend on the list order. -/
theorem find?_eq_of_perm {α β : Type} [DecidableEq β] {l l' : List α} (f : α → β)
    (hperm : l.Perm l') (hnd : (l.map f).Nodup) (c : β) :
    l.find? (fun x => f x = c) = l'.find? (fun x => f x = c) := by
  cases hf : l.find? (fun x => f x = c) with
  | none =>
    rw [List.find?_eq_none] at hf
    symm
    rw [List.find?_eq_none]
    intro x hx
    exact hf x (hperm.symm.subset hx)
  | some a =>
    have ha := List.mem_of_find?_eq_some hf
    have hpa := List.find?_some hf
    cases hf' : l'.find? (fun x => f x = c) with
    | none =>
      rw [List.find?_eq_none] at hf'
      exact absurd hpa (hf' a (hperm.subset ha))
    | some b =>
      have hb := hperm.symm.subset (List.mem_of_find?_eq_some hf')
      have hpb := List.find?_some hf'
      have hab : a = b := by
        apply List.inj_on_of_nodup_map hnd ha hb
        simp only [decide_eq_true_eq] at hpa hpb
        rw [hpa, hpb]
      rw [hab]

/-- The simultaneous commit does not depend on the order of the accepted
pairs. -/
theorem commit_all_perm (ps ps' : List (Tile × Tile)) (ts : List Tile)
    (hperm : ps.Perm ps') (hslots : (slotsOf ps).Nodup) :
    commit_all ps ts = commit_all ps' ts := by
  have hain := hslots
  unfold slotsOf at hain
  rw [List.nodup_append] at hain
  obtain ⟨hnd1, hnd2, -⟩ := hain
  unfold commit_all
  apply List.map_congr_left
  intro t _
  rw [find?_eq_of_perm (fun pr : Tile × Tile => pr.1.tile_position) hperm hnd1
        t.tile_position,
      find?_eq_of_perm (fun pr : Tile × Tile => pr.2.tile_position) hperm hnd2
        t.tile_position]

/-- The commit loop never touches a position. -/
theorem commit_seq_map_pos (ps : List (Tile × Tile)) :
    ∀ ts : List Tile, (commit_seq ps ts).map (fun t => t.tile_position)
      = ts.map (fun t => t.tile_position) := by
  induction ps with
  | nil =>
    intro ts
    rfl
  | cons pr rest ih =>
    intro ts
    show (commit_seq rest (switch_tiles ts pr.1 pr.2)).map (fun t => t.tile_position) = _
    rw [ih, switch_tiles_map_pos]

/-- Exchanging the images of the two distinguished elements permutes the
mapped list. -/
theorem swap_mid_perm {α : Type} (S U1 U2 : List α) (a b : α) :
    (S ++ b :: (U1 ++ a :: U2)).Perm (S ++ a :: (U1 ++ b :: U2)) := by
  have hinner : ∀ c : α, (S ++ (U1 ++ c :: U2)).Perm (c :: (S ++ U1 ++ U2)) := by
    intro c
    rw [← List.append_assoc]
    exact List.perm_middle
  have h1 : (S ++ b :: (U1 ++ a :: U2)).Perm (b :: a :: (S ++ U1 ++ U2)) :=
    List.perm_middle.trans (List.Perm.cons b (hinner a))
  have h2 : (S ++ a :: (U1 ++ b :: U2)).Perm (a :: b :: (S ++ U1 ++ U2)) :=
    List.perm_middle.trans (List.Perm.cons a (hinner b))
  exact h1.trans ((List.Perm.swap a b _).trans h2.symm)

/-- Mapping with `g ∘ f` where `f` fixes everything except the two
distinguished elements, whose images under `g ∘ f` are exchanged, permutes
the plain `g`-image. -/
theorem map_swap_two_perm {α β : Type} (g : α → β) (f : α → α)
    (s u1 u2 : List α) (x y : α)
    (hs : ∀ z ∈ s, f z = z) (h1 : ∀ z ∈ u1, f z = z) (h2 : ∀ z ∈ u2, f z = z)
    (hx : g (f x) = g y) (hy : g (f y) = g x) :
    (((s ++ x :: (u1 ++ y :: u2)).map f).map g).Perm
      ((s ++ x :: (u1 ++ y :: u2)).map g) := by
  have hms : (s.map f).map g = s.map g := by
    rw [List.map_map]
    apply List.map_congr_left
    intro z hz
    simp only [Function.comp_apply]
    rw [hs z hz]
  have hm1 : (u1.map f).map g = u1.map g := by
    rw [List.map_map]
    apply List.map_congr_left
    intro z hz
    simp only [Function.comp_apply]
    rw [h1 z hz]
  have hm2 : (u2.map f).map g = u2.map g := by
    rw [List.map_map]
    apply List.map_congr_left
    intro z hz
    simp only [Function.comp_apply]
    rw [h2 z hz]
  simp only [List.map_append, List.map_cons]
  rw [hms, hm1, hm2, hx, hy]
  exact swap_mid_perm (s.map g) (u1.map g) (u2.map g) (g x) (g y)

/-- A switch of two present slots permutes the payload multiset. -/
theorem switch_payload_perm {ts : List Tile}
    (hnd : (ts.map (fun t => t.tile_position)).Nodup)
    {t1 t2 : Tile} (h1 : t1 ∈ ts) (h2 : t2 ∈ ts) :
    ((switch_tiles ts t1 t2).map payload).Perm (ts.map payload) := by
  by_cases heq : t1.tile_position = t2.tile_position
  · have ht12 : t1 = t2 := pos_inj hnd h1 h2 heq
    subst ht12
    rw [switch_tiles_self hnd h1]
  · unfold switch_tiles
    rw [tile_at_loc_of_mem hnd h1, tile_at_loc_of_mem hnd h2]
    simp only [Option.getD_some]
    obtain ⟨s, t, rfl⟩ := List.append_of_mem h1
    have hne : t2 ≠ t1 := fun hc => heq (by rw [hc])
    have ht2 : t2 ∈ s ∨ t2 ∈ t := by
      rcases List.mem_append.mp h2 with h | h
      · exact Or.inl h
      · rcases List.mem_cons.mp h with h | h
        · exact absurd h hne
        · exact Or.inr h
    rcases ht2 with ht2 | ht2
    · -- t2 before t1: list is s1 ++ t2 :: (s2 ++ t1 :: t)
      obtain ⟨s1, s2, rfl⟩ := List.append_of_mem ht2
      have hshape : (s1 ++ t2 :: s2) ++ t1 :: t = s1 ++ t2 :: (s2 ++ t1 :: t) := by
        simp
      rw [hshape] at hnd ⊢
      rw [List.map_append, List.map_cons, List.map_append, List.map_cons] at hnd
      rw [List.nodup_append] at hnd
      obtain ⟨hS, hM, hdisj⟩ := hnd
      obtain ⟨hp2notM, hMnd⟩ := List.nodup_cons.mp hM
      rw [List.nodup_append] at hMnd
      obtain ⟨hU1, hP1U2, hdisj2⟩ := hMnd
      obtain ⟨hp1notU2, hU2⟩ := List.nodup_cons.mp hP1U2
      apply map_swap_two_perm payload _ s1 s2 t t2 t1
      · intro z hz
        have hz1 : z.tile_position ≠ t1.tile_position := by
          intro hc
          exact hdisj (by rw [← hc]; exact List.mem_map_of_mem _ hz)
            (List.mem_cons_of_mem _ (List.mem_append_right _ (List.mem_cons_self _ _)))
        have hz2 : z.tile_position ≠ t2.tile_position := by
          intro hc
          exact hdisj (by rw [← hc]; exact List.mem_map_of_mem _ hz)
            (List.mem_cons_self _ _)
        rw [if_neg hz1, if_neg hz2]
      · intro z hz
        have hz1 : z.tile_position ≠ t1.tile_position := by
          intro hc
          exact hdisj2 (by rw [← hc]; exact List.mem_map_of_mem _ hz)
            (List.mem_cons_self _ _)
        have hz2 : z.tile_position ≠ t2.tile_position := by
          intro hc
          exact hp2notM (by
            rw [← hc]
            exact List.mem_append_left _ (List.mem_map_of_mem _ hz))
        rw [if_neg hz1, if_neg hz2]
      · intro z hz
        have hz1 : z.tile_position ≠ t1.tile_position := by
          intro hc
          exact hp1notU2 (by rw [← hc]; exact List.mem_map_of_mem _ hz)
        have hz2 : z.tile_position ≠ t2.tile_position := by
          intro hc
          exact hp2notM (by
            rw [← hc]
            exact List.mem_append_right _ (List.mem_cons_of_mem _ (List.mem_map_of_mem _ hz)))
        rw [if_neg hz1, if_neg hz2]
      · rw [if_neg (fun hc => heq hc.symm), if_pos rfl]
        rfl
      · rw [if_pos rfl]
        rfl
    · -- t1 before t2: list is s ++ t1 :: (u1 ++ t2 :: u2)
      obtain ⟨u1, u2, rfl⟩ := List.append_of_mem ht2
      rw [List.map_append, List.map_cons, List.map_append, List.map_cons] at hnd
      rw [List.nodup_append] at hnd
      obtain ⟨hS, hM, hdisj⟩ := hnd
      obtain ⟨hp1notM, hMnd⟩ := List.nodup_cons.mp hM
      rw [List.nodup_append] at hMnd
      obtain ⟨hU1, hP2U2, hdisj2⟩ := hMnd
      obtain ⟨hp2notU2, hU2⟩ := List.nodup_cons.mp hP2U2
      apply map_swap_two_perm payload _ s u1 u2 t1 t2
      · intro z hz
        have hz1 : z.tile_position ≠ t1.tile_position := by
          intro hc
          exact hdisj (by rw [← hc]; exact List.mem_map_of_mem _ hz)
            (List.mem_cons_self _ _)
        have hz2 : z.tile_position ≠ t2.tile_position := by
          intro hc
          exact hdisj (by rw [← hc]; exact List.mem_map_of_mem _ hz)
            (List.mem_cons_of_mem _ (List.mem_append_right _ (List.mem_cons_self _ _)))
        rw [if_neg hz1, if_neg hz2]
      · intro z hz
        have hz1 : z.tile_position ≠ t1.tile_position := by
          intro hc
          exact hp1notM (by
            rw [← hc]
            exact List.mem_append_left _ (List.mem_map_of_mem _ hz))
        have hz2 : z.tile_position ≠ t2.tile_position := by
          intro hc
          exact hdisj2 (by rw [← hc]; exact List.mem_map_of_mem _ hz)
            (List.mem_cons_self _ _)
        rw [if_neg hz1, if_neg hz2]
      · intro z hz
        have hz1 : z.tile_position ≠ t1.tile_position := by
          intro hc
          exact hp1notM (by
            rw [← hc]
            exact List.mem_append_right _ (List.mem_cons_of_mem _ (List.mem_map_of_mem _ hz)))
        have hz2 : z.tile_position ≠ t2.tile_position := by
          intro hc
          exact hp2notU2 (by rw [← hc]; exact List.mem_map_of_mem _ hz)
        rw [if_neg hz1, if_neg hz2]
      · rw [if_pos rfl]
        rfl
      · rw [if_neg (fun hc => heq hc.symm), if_pos rfl]
        rfl

/-- The commit loop permutes the payload multiset. -/
theorem commit_seq_payload_perm (ps : List (Tile × Tile)) :
    ∀ ts : List Tile, (ts.map (fun t => t.tile_position)).Nodup →
      (∀ pr ∈ ps, pr.1 ∈ ts ∧ pr.2 ∈ ts) →
      (slotsOf ps).Nodup →
      ((commit_seq ps ts).map payload).Perm (ts.map payload) := by
  induction ps with
  | nil =>
    intro ts _ _ _
    exact List.Perm.refl _
  | cons pr rest ih =>
    intro ts hnd hmem hslots
    obtain ⟨h1, h2⟩ := hmem pr (List.mem_cons_self pr rest)
    obtain ⟨hAB, hrest, hslots'⟩ := slots_cons_facts pr rest hslots
    have hnd' : ((switch_tiles ts pr.1 pr.2).map (fun t => t.tile_position)).Nodup := by
      rw [switch_tiles_map_pos]
      exact hnd
    have hmem' : ∀ q ∈ rest,
        q.1 ∈ switch_tiles ts pr.1 pr.2 ∧ q.2 ∈ switch_tiles ts pr.1 pr.2 := by
      intro q hq
      obtain ⟨hq1, hq2⟩ := hmem q (List.mem_cons_of_mem pr hq)
      obtain ⟨f1, f2, f3, f4⟩ := hrest q hq
      exact ⟨mem_switch_tiles_of_ne hq1 f1 f2, mem_switch_tiles_of_ne hq2 f3 f4⟩
    show ((commit_seq rest (switch_tiles ts pr.1 pr.2)).map payload).Perm _
    exact (ih _ hnd' hmem' hslots').trans (switch_payload_perm hnd h1 h2)

/-- A returned destination is an Empty tile of the store. -/
theorem wants_dest_mem {w : World} {tile des : Tile}
    (h : w.wants_to_move_to_tile tile = some des) :
    des ∈ w.tiles ∧ des.tile_type = TileType.Empty := by
  unfold World.wants_to_move_to_tile at h
  by_cases hc : tile.tile_type = TileType.Empty
  · rw [if_pos hc] at h
    cases h
  · rw [if_neg hc] at h
    cases hm : pymax (w.desirability_matrix tile) with
    | none =>
      rw [hm] at h
      cases h
    | some m =>
      rw [hm, Option.some_bind] at h
      by_cases hlt : w.tile_desirability tile tile.tile_type true < m.2
      · rw [if_pos hlt] at h
        obtain rfl : m.1 = des := Option.some.inj h
        obtain ⟨l1, l2, hs, -, -⟩ := pymax_some_split hm
        have hmm : m ∈ w.desirability_matrix tile := by
          rw [hs]
          exact List.mem_append_right _ (List.mem_cons_self _ _)
        unfold World.desirability_matrix at hmm
        obtain ⟨u, hu, hum⟩ := List.mem_map.mp hmm
        obtain ⟨hun, hut⟩ := List.mem_filter.mp hu
        have humem : u ∈ w.tiles := by
          unfold World.tile_neighbours at hun
          obtain ⟨loc, -, hfind⟩ := List.mem_filterMap.mp hun
          unfold tile_at_loc at hfind
          exact List.mem_of_find?_eq_some hfind
        constructor
        · rw [← hum]
          exact humem
        · rw [← hum]
          simpa using hut
      · rw [if_neg hlt] at h
        cases h

/-- Each movement-matrix entry pairs a non-Empty store tile with an Empty
store tile. -/
theorem movement_matrix_mem {w : World} {p : MoveProposal}
    (hp : p ∈ w.movement_matrix) :
    p.1.1 ∈ w.tiles ∧ p.1.1.tile_type ≠ TileType.Empty ∧
    p.2 ∈ w.tiles ∧ p.2.tile_type = TileType.Empty := by
  unfold World.movement_matrix at hp
  obtain ⟨tile, htile, hmap⟩ := List.mem_filterMap.mp hp
  cases hw : w.wants_to_move_to_tile tile with
  | none =>
    rw [hw] at hmap
    cases hmap
  | some des =>
    rw [hw] at hmap
    simp only [Option.map_some', Option.some.injEq] at hmap
    obtain rfl : ((tile, w.self_desirability tile), des) = p := hmap
    obtain ⟨hd1, hd2⟩ := wants_dest_mem hw
    refine ⟨htile, ?_, hd1, hd2⟩
    intro hc
    unfold World.wants_to_move_to_tile at hw
    rw [if_pos hc] at hw
    cases hw

/-- Mapping a left inverse over a `filterMap` image gives a sublist. -/
theorem map_filterMap_sublist {α β : Type} (f : α → Option β) (g : β → α)
    (hfg : ∀ a b, f a = some b → g b = a) (l : List α) :
    ((l.filterMap f).map g).Sublist l := by
  induction l with
  | nil => simp
  | cons a t ih =>
    cases hf : f a with
    | none =>
      simp only [List.filterMap_cons, hf]
      exact ih.cons a
    | some b =>
      simp only [List.filterMap_cons, hf, List.map_cons]
      rw [hfg a b hf]
      exact ih.cons₂ a

/-- The proposers of the movement matrix sit at pairwise distinct
positions. -/
theorem movement_matrix_proposer_pos_nodup (w : World)
    (hnd : (w.tiles.map (fun t => t.tile_position)).Nodup) :
    ((w.movement_matrix).map (fun p => p.1.1.tile_position)).Nodup := by
  have hsub : ((w.movement_matrix).map (fun p => p.1.1)).Sublist w.tiles := by
    unfold World.movement_matrix
    apply map_filterMap_sublist
    intro a b hab
    cases hw : w.wants_to_move_to_tile a with
    | none =>
      rw [hw] at hab
      cases hab
    | some des =>
      rw [hw] at hab
      simp only [Option.map_some', Option.some.injEq] at hab
      rw [← hab]
  have hsub2 := hsub.map (fun t : Tile => t.tile_position)
  rw [List.map_map] at hsub2
  exact (by simpa [Function.comp] using hsub2 :
    ((w.movement_matrix).map (fun p => p.1.1.tile_position)).Sublist
      (w.tiles.map (fun t => t.tile_position))).nodup hnd

/-- Under the store invariants, the accepted pairs of a step live in the
store and touch pairwise distinct slots. -/
theorem accepted_props (w : World) (hwf : w.WF) :
    (∀ pr ∈ rem_dups w.movement_matrix, pr.1 ∈ w.tiles ∧ pr.2 ∈ w.tiles) ∧
    (slotsOf (rem_dups w.movement_matrix)).Nodup := by
  obtain ⟨hpos, hids, -⟩ := hwf
  have hsrc : ∀ x ∈ rem_dups w.movement_matrix,
      x.1 ∈ w.tiles ∧ x.1.tile_type ≠ TileType.Empty ∧
      x.2 ∈ w.tiles ∧ x.2.tile_type = TileType.Empty ∧
      (∃ v d', ((x.1, v), d') ∈ w.movement_matrix ∧ d'.tile_id = x.2.tile_id) := by
    intro x hx
    obtain ⟨⟨v, d', hd', hidq⟩, ⟨p, hp, hpd⟩⟩ := rem_dups_src _ x hx
    obtain ⟨h1, h2, -, -⟩ := movement_matrix_mem hd'
    obtain ⟨-, -, h3, h4⟩ := movement_matrix_mem hp
    exact ⟨h1, h2, hpd ▸ h3, hpd ▸ h4, v, d', hd', hidq⟩
  have hdestnodup := rem_dups_dest_ids_nodup w.movement_matrix
  have haccnodup : (rem_dups w.movement_matrix).Nodup := by
    have h := hdestnodup
    rw [show (fun x : Tile × Tile => x.2.tile_id)
        = (fun t : Tile => t.tile_id) ∘ (fun x : Tile × Tile => x.2) from rfl,
      ← List.map_map] at h
    exact (h.of_map _).of_map _
  have hdestinj : ∀ x ∈ rem_dups w.movement_matrix,
      ∀ y ∈ rem_dups w.movement_matrix, x.2.tile_id = y.2.tile_id → x = y :=
    fun x hx y hy h => List.inj_on_of_nodup_map hdestnodup hx hy h
  have hmmp := movement_matrix_proposer_pos_nodup w hpos
  refine ⟨fun pr hpr => ⟨(hsrc pr hpr).1, (hsrc pr hpr).2.2.1⟩, ?_⟩
  unfold slotsOf
  rw [List.nodup_append]
  refine ⟨?_, ?_, ?_⟩
  · refine List.Nodup.map_on ?_ haccnodup
    intro x hx y hy hpp
    obtain ⟨-, -, -, -, vx, dx', hdx', hidx⟩ := hsrc x hx
    obtain ⟨-, -, -, -, vy, dy', hdy', hidy⟩ := hsrc y hy
    have hentry : ((x.1, vx), dx') = ((y.1, vy), dy') := by
      apply List.inj_on_of_nodup_map hmmp hdx' hdy'
      simpa using hpp
    have hdd : dx' = dy' := congrArg Prod.snd hentry
    exact hdestinj x hx y hy (by rw [← hidx, ← hidy, hdd])
  · refine List.Nodup.map_on ?_ haccnodup
    intro x hx y hy hpp
    have hxy : x.2 = y.2 := pos_inj hpos (hsrc x hx).2.2.1 (hsrc y hy).2.2.1 hpp
    exact hdestinj x hx y hy (by rw [hxy])
  · intro a ha hb
    obtain ⟨x, hx, rfl⟩ := List.mem_map.mp ha
    obtain ⟨y, hy, hyy⟩ := List.mem_map.mp hb
    have hxy : y.2 = x.1 := pos_inj hpos (hsrc y hy).2.2.1 (hsrc x hx).1 hyy
    exact (hsrc x hx).2.1 (by rw [← hxy]; exact (hsrc y hy).2.2.2.1)

/-- C4: `run_step` is the two-phase reference algorithm.  All proposals and
self-desirabilities are computed from the unmodified pre-step store (both
sides read only `w`), conflict resolution is shared, and the sequential
commit equals the simultaneous snapshot commit `run_step_spec`; moreover
committing the accepted pairs in any order yields the same post-step
store. -/
theorem c4_run_step_two_phase (w : World) (hwf : w.WF) :
    w.run_step = w.run_step_spec ∧
    ∀ ps : List (Tile × Tile), ps.Perm (rem_dups w.movement_matrix) →
      { w with tiles := commit_seq ps w.tiles } = w.run_step := by
  obtain ⟨hmem, hslots⟩ := accepted_props w hwf
  have hnd := hwf.1
  have hmain : commit_seq (rem_dups w.movement_matrix) w.tiles
      = commit_all (rem_dups w.movement_matrix) w.tiles :=
    commit_seq_eq_commit_all _ w.tiles hnd hmem hslots
  constructor
  · unfold World.run_step World.run_step_spec
    rw [hmain]
  · intro ps hperm
    have hmem' : ∀ pr ∈ ps, pr.1 ∈ w.tiles ∧ pr.2 ∈ w.tiles :=
      fun pr hpr => hmem pr (hperm.subset hpr)
    have hslots' : (slotsOf ps).Nodup := by
      have hp : (slotsOf ps).Perm (slotsOf (rem_dups w.movement_matrix)) :=
        List.Perm.append (hperm.map _) (hperm.map _)
      exact hp.nodup_iff.mpr hslots
    have h1 : commit_seq ps w.tiles = commit_all ps w.tiles :=
      commit_seq_eq_commit_all ps w.tiles hnd hmem' hslots'
    have h2 : commit_all ps w.tiles = commit_all (rem_dups w.movement_matrix) w.tiles :=
      commit_all_perm ps _ w.tiles hperm hslots'
    unfold World.run_step
    rw [h1, h2, ← hmain]

/-- Witness for C4 on the concrete world `wMove` (three accepted moves):
the step equals the simultaneous commit, and committing the accepted pairs
in reverse order gives the same step. -/
theorem c4_witness :
    wMove.run_step = wMove.run_step_spec ∧
    { wMove with
        tiles := commit_seq ((rem_dups wMove.movement_matrix).reverse) wMove.tiles }
      = wMove.run_step := by
  have h := c4_run_step_two_phase wMove (by decide)
  exact ⟨h.1, h.2 _ (List.reverse_perm _)⟩

/-- C7: a step never creates, destroys or moves a store slot: the position
list is unchanged (so each tile keeps its position and the set of occupied
positions is fixed), while the multisets of ids and of types over the whole
store are preserved — payloads are only exchanged between slots. -/
theorem c7_run_step_invariants (w : World) (hwf : w.WF) :
    (w.run_step.tiles.map (fun t => t.tile_position)
      = w.tiles.map (fun t => t.tile_position)) ∧
    (w.run_step.tiles.map (fun t => t.tile_id)).Perm
      (w.tiles.map (fun t => t.tile_id)) ∧
    (w.run_step.tiles.map (fun t => t.tile_type)).Perm
      (w.tiles.map (fun t => t.tile_type)) := by
  obtain ⟨hmem, hslots⟩ := accepted_props w hwf
  have hnd := hwf.1
  have hperm : (w.run_step.tiles.map payload).Perm (w.tiles.map payload) :=
    commit_seq_payload_perm _ w.tiles hnd hmem hslots
  refine ⟨commit_seq_map_pos _ w.tiles, ?_, ?_⟩
  · have h := hperm.map (fun pl : TileType × Int => pl.2)
    rw [List.map_map, List.map_map] at h
    have hc : ((fun pl : TileType × Int => pl.2) ∘ payload)
        = fun t : Tile => t.tile_id := rfl
    rw [hc] at h
    exact h
  · have h := hperm.map (fun pl : TileType × Int => pl.1)
    rw [List.map_map, List.map_map] at h
    have hc : ((fun pl : TileType × Int => pl.1) ∘ payload)
        = fun t : Tile => t.tile_type := rfl
    rw [hc] at h
    exact h

/-- Witness for C7 on `wMove`, whose step moves three tiles. -/
theorem c7_witness :
    wMove.run_step.tiles.map (fun t => t.tile_position)
        = wMove.tiles.map (fun t => t.tile_position) ∧
      (wMove.run_step.tiles.map (fun t => t.tile_id)).Perm
        (wMove.tiles.map (fun t => t.tile_id)) := by
  have h := c7_run_step_invariants wMove (by decide)
  exact ⟨h.1, h.2.1⟩

end Schelling
